import Mathlib

/- Batteries marks the `Rat` field operations `@[irreducible]` purely so that
simp does not unfold them by accident; re-enable definitional unfolding here
so that concrete rational computations can be settled by kernel reduction. -/
attribute [local semireducible] Rat.add Rat.mul Rat.sub Rat.inv

/-
Verification of the micrograd.c reverse-mode autodiff engine.

The C program is shallowly embedded as follows.

* C `float` values are modelled as `ℚ`; all the concrete computations the
  claims mention (small integers, halves, reciprocals) are exact in `float`,
  so exact rational arithmetic is the faithful reading of the
  "within floating-point tolerance" clauses.
* The transcendental library functions `pow` and `exp` from `math.h` are
  abstract parameters (`ScalarOps`); theorems quantified over `ops` hold for
  every interpretation of them.  Concrete claims that evaluate `pow` at
  integer exponents use `ratPow`, the exact rational power function, which
  agrees with the C `pow` at those arguments.
* The static `tape_memory` array together with `tape_head` is modelled as a
  list `tape` holding the live nodes `tape_memory[0 .. tape_head)`; the heap
  linked list of parameters is modelled as the list `params`.  A C
  `Value *` handle is a `Ref`: either a tape index or a parameter index.
* `new_val`'s capacity check `tape_head > MAX_TAPE_SIZE` followed by
  `exit(1)` is modelled by returning `none` (process termination has no
  return value; `none` marks that the program is gone).
* A node's `grad_fn` function pointer always holds the backward rule that
  matches the operation that produced the node, so it is modelled by the
  operation tag `Op`; `noop_backward` is `Op.leaf`.
-/

namespace Micrograd

/-- Abstract interpretations of the math.h functions the engine calls:
`powF x n` models `pow(x, n)` and `expF x` models `exp(x)`. -/
structure ScalarOps where
  powF : ℚ → ℚ → ℚ
  expF : ℚ → ℚ

/-- The operation that produced a node; selects its backward rule
(the C `grad_fn` function pointer).  `leaf` is `noop_backward`. -/
inductive Op where
  | leaf | add | sub | mul | div | pow | exp | tanh | relu
  deriving DecidableEq, Repr

/-- A C `Value *` handle: either a pointer into `tape_memory` (a tape index)
or a pointer to a heap-allocated parameter (a parameter index). -/
inductive Ref where
  | tape (i : ℕ)
  | param (i : ℕ)
  deriving DecidableEq, Repr

/-- One `Value` struct: `data`, `grad`, the backward rule tag (`grad_fn`),
and the two operand pointers `prev[0]`, `prev[1]`. -/
structure Node where
  data : ℚ
  grad : ℚ
  op : Op
  prev0 : Option Ref
  prev1 : Option Ref
  deriving DecidableEq, Repr

instance : Inhabited Node := ⟨⟨0, 0, Op.leaf, none, none⟩⟩

/-- The mutable program state: the live prefix of `tape_memory`
(indices `0 .. tape_head`) and the parameter list. -/
structure State where
  tape : List Node
  params : List Node
  deriving DecidableEq, Repr

def emptyState : State := ⟨[], []⟩

/-- `#define MAX_TAPE_SIZE 100000`. -/
def MAX_TAPE_SIZE : ℕ := 100000

/-- Dereference a handle (out-of-range reads give the default node;
such reads are undefined behaviour in C and unreachable through the API). -/
def getNode (st : State) : Ref → Node
  | .tape i => st.tape.getD i default
  | .param i => st.params.getD i default

def dataOf (st : State) (r : Ref) : ℚ := (getNode st r).data

def gradOf (st : State) (r : Ref) : ℚ := (getNode st r).grad

/-- Write through a handle: replace the referenced node by `f` of it.
Out-of-range writes are dropped (undefined behaviour in C, unreachable
through the API). -/
def mapRef (st : State) (r : Ref) (f : Node → Node) : State :=
  match r with
  | .tape i => { st with tape := st.tape.set i (f (st.tape.getD i default)) }
  | .param i => { st with params := st.params.set i (f (st.params.getD i default)) }

/-- `p->grad += d`. -/
def addGrad (st : State) (r : Ref) (d : ℚ) : State :=
  mapRef st r (fun nd => { nd with grad := nd.grad + d })

/-- `new_param`: heap-allocate a leaf value and push it on the parameter
registry (the C code pushes on a linked list; the model appends so that a
parameter's index is stable). -/
def new_param (st : State) (d : ℚ) : State × Ref :=
  ({ st with params := st.params ++ [⟨d, 0, Op.leaf, none, none⟩] },
   Ref.param st.params.length)

/-- `new_val`: allocate the next tape slot.  The C code checks
`tape_head > MAX_TAPE_SIZE` and calls `exit(1)` when it holds, modelled as
`none`.  Note the check is strict: at `tape_head == MAX_TAPE_SIZE` the
allocation still proceeds (in C this writes `tape_memory[MAX_TAPE_SIZE]`,
one past the end of the array). -/
def new_val (st : State) (d : ℚ) (prev0 prev1 : Option Ref) :
    Option (State × Ref) :=
  if st.tape.length > MAX_TAPE_SIZE then none
  else some ({ st with tape := st.tape ++ [⟨d, 0, Op.leaf, prev0, prev1⟩] },
             Ref.tape st.tape.length)

/-- `out->grad_fn = ...` after `new_val`: retag the freshly allocated node. -/
def setOpAt (st : State) (r : Ref) (o : Op) : State :=
  mapRef st r (fun nd => { nd with op := o })

def add (st : State) (a b : Ref) : Option (State × Ref) :=
  (new_val st (dataOf st a + dataOf st b) (some a) (some b)).map
    (fun p => (setOpAt p.1 p.2 Op.add, p.2))

def sub (st : State) (a b : Ref) : Option (State × Ref) :=
  (new_val st (dataOf st a - dataOf st b) (some a) (some b)).map
    (fun p => (setOpAt p.1 p.2 Op.sub, p.2))

def mul (st : State) (a b : Ref) : Option (State × Ref) :=
  (new_val st (dataOf st a * dataOf st b) (some a) (some b)).map
    (fun p => (setOpAt p.1 p.2 Op.mul, p.2))

def true_div (st : State) (a b : Ref) : Option (State × Ref) :=
  (new_val st (dataOf st a / dataOf st b) (some a) (some b)).map
    (fun p => (setOpAt p.1 p.2 Op.div, p.2))

/-- `v_pow`: the exponent is itself allocated as a tape node
(`new_val(n, NULL, NULL)`) and becomes `prev[1]` of the pow node. -/
def v_pow (ops : ScalarOps) (st : State) (a : Ref) (n : ℚ) :
    Option (State × Ref) :=
  (new_val st n none none).bind (fun pe =>
    (new_val pe.1 (ops.powF (dataOf pe.1 a) n) (some a) (some pe.2)).map
      (fun p => (setOpAt p.1 p.2 Op.pow, p.2)))

/-- `v_div`: `a / b = a * (b ** -1)`. -/
def v_div (ops : ScalarOps) (st : State) (a b : Ref) :
    Option (State × Ref) :=
  (v_pow ops st b (-1)).bind (fun pr => mul pr.1 a pr.2)

def v_exp (ops : ScalarOps) (st : State) (a : Ref) : Option (State × Ref) :=
  (new_val st (ops.expF (dataOf st a)) (some a) none).map
    (fun p => (setOpAt p.1 p.2 Op.exp, p.2))

/-- `v_tanh` computes its forward value through `exp`:
`(exp(2x)-1)/(exp(2x)+1)`. -/
def v_tanh (ops : ScalarOps) (st : State) (a : Ref) : Option (State × Ref) :=
  (new_val st ((ops.expF (2 * dataOf st a) - 1) / (ops.expF (2 * dataOf st a) + 1))
      (some a) none).map
    (fun p => (setOpAt p.1 p.2 Op.tanh, p.2))

def relu (st : State) (a : Ref) : Option (State × Ref) :=
  (new_val st (if dataOf st a > 0 then dataOf st a else 0) (some a) none).map
    (fun p => (setOpAt p.1 p.2 Op.relu, p.2))

/-- Run the backward rule (`grad_fn`) of the node behind `r`, reading and
writing the state exactly in the order the C rules do: every `+=` re-reads
the current `self->grad`, and `data` fields are read at the moment the C
line reads them. -/
def runRule (ops : ScalarOps) (st : State) (r : Ref) : State :=
  let nd := getNode st r
  match nd.op, nd.prev0, nd.prev1 with
  | Op.add, some p0, some p1 =>
      let st1 := addGrad st p0 (1 * gradOf st r)
      addGrad st1 p1 (1 * gradOf st1 r)
  | Op.sub, some p0, some p1 =>
      let st1 := addGrad st p0 (1 * gradOf st r)
      addGrad st1 p1 (-(1 * gradOf st1 r))
  | Op.mul, some p0, some p1 =>
      let st1 := addGrad st p0 (dataOf st p1 * gradOf st r)
      addGrad st1 p1 (dataOf st1 p0 * gradOf st1 r)
  | Op.div, some p0, some p1 =>
      let x := dataOf st p0
      let y := dataOf st p1
      let st1 := addGrad st p0 ((1 / y) * gradOf st r)
      addGrad st1 p1 ((-x / (y * y)) * gradOf st1 r)
  | Op.pow, some p0, some p1 =>
      let x := dataOf st p0
      let en := dataOf st p1
      addGrad st p0 ((en * ops.powF x (en - 1)) * gradOf st r)
  | Op.exp, some p0, none =>
      addGrad st p0 (dataOf st r * gradOf st r)
  | Op.tanh, some p0, none =>
      addGrad st p0 ((1 - dataOf st r * dataOf st r) * gradOf st r)
  | Op.relu, some p0, none =>
      addGrad st p0 ((if dataOf st p0 > 0 then (1 : ℚ) else 0) * gradOf st r)
  | _, _, _ => st

/-- Fire the rules of the given tape indices left to right. -/
def runList (ops : ScalarOps) (st : State) (L : List ℕ) : State :=
  L.foldl (fun s i => runRule ops s (Ref.tape i)) st

/-- `free_vals`: reset the allocation cursor; every tape node is gone. -/
def free_vals (st : State) : State := { st with tape := [] }

/-- `zero_grad`: zero every registered parameter's gradient. -/
def zero_grad (st : State) : State :=
  { st with params := st.params.map (fun nd => { nd with grad := 0 }) }

/-- `update_params`: `data -= lr * grad` on every parameter. -/
def update_params (st : State) (lr : ℚ) : State :=
  { st with params := st.params.map (fun nd => { nd with data := nd.data - lr * nd.grad }) }

/-- The tape index a handle starts backpropagation from (`root->tape_idx`,
`-1` for parameters, encoded as loop bound `0`). -/
def rootBound : Ref → ℕ
  | .tape i => i + 1
  | .param _ => 0

/-- The propagation phase of `backward`: seed `root->grad = 1.0`, then fire
every node from `root->tape_idx` down to `0`. -/
def backward_pass (ops : ScalarOps) (st : State) (root : Ref) : State :=
  let st1 := mapRef st root (fun nd => { nd with grad := 1 })
  runList ops st1 (List.range (rootBound root)).reverse

/-- `backward(root, retain_graph)`: the linear reverse-index sweep, followed
by `free_vals()` unless `retain_graph` is set. -/
def backward (ops : ScalarOps) (st : State) (root : Ref) (retain : Bool) : State :=
  if retain then backward_pass ops st root
  else free_vals (backward_pass ops st root)

/-- `build_topo`: post-order depth-first traversal over `prev` links,
marking visited tape indices.  The pair is `(visited, topo)`.  The fuel
argument only bounds the recursion depth; on a well-formed tape operand
indices strictly decrease, so fuel `i + 1` fully explores node `i`. -/
def build_topo (t : List Node) : ℕ → Ref → List ℕ × List ℕ → List ℕ × List ℕ
  | 0, _, s => s
  | _ + 1, .param _, s => s
  | fuel + 1, .tape i, s =>
      let nd := t.getD i default
      if nd.op = Op.leaf then s
      else if i ∈ s.1 then s
      else
        let s1 := (i :: s.1, s.2)
        let s2 := match nd.prev0 with
          | none => s1
          | some r => build_topo t fuel r s1
        let s3 := match nd.prev1 with
          | none => s2
          | some r => build_topo t fuel r s2
        (s3.1, s3.2 ++ [i])

/-- `backward_dfs(root, retain_graph)`: build the post-order list of the
interior nodes reachable from the root, seed `root->grad = 1.0`, fire the
collected rules in reverse post-order, then `free_vals()` unless
`retain_graph` is set. -/
def backward_dfs (ops : ScalarOps) (st : State) (root : Ref) (retain : Bool) : State :=
  let res := build_topo st.tape (rootBound root) root ([], [])
  let st1 := mapRef st root (fun nd => { nd with grad := 1 })
  let st2 := runList ops st1 res.2.reverse
  if retain then st2 else free_vals st2

/-- Exact rational reading of math.h `pow` at the arguments the concrete
claims use: an integer exponent.  (`pow(3,2) = 9`, `pow(y,-1) = 1/y`,
`pow(y,-2) = 1/y²` are exact in C `double` as well, up to the final float
rounding the spec's tolerance clause absorbs.) -/
def ratPow (x e : ℚ) : ℚ := if e.den = 1 then x ^ e.num else 0

/-- Concrete scalar interpretation used by the worked examples (none of
them evaluate `exp`). -/
def ratOps : ScalarOps := ⟨ratPow, fun _ => 0⟩

/-- A forward-construction instruction; operands name earlier results by
their position in the list of handles returned so far.  This is exactly a
straight-line client program against the operation API. -/
inductive Instr where
  | leaf (d : ℚ)
  | par (d : ℚ)
  | add (a b : ℕ)
  | sub (a b : ℕ)
  | mul (a b : ℕ)
  | tdiv (a b : ℕ)
  | vpow (a : ℕ) (n : ℚ)
  | vdiv (a b : ℕ)
  | vexp (a : ℕ)
  | vtanh (a : ℕ)
  | vrelu (a : ℕ)
  deriving DecidableEq, Repr

/-- Execute one instruction: look the operand handles up, call the
constructor, append the returned handle to the environment. -/
def stepTrace (ops : ScalarOps) (s : State × List Ref) :
    Instr → Option (State × List Ref)
  | .leaf d => (new_val s.1 d none none).map (fun p => (p.1, s.2 ++ [p.2]))
  | .par d => some ((new_param s.1 d).1, s.2 ++ [(new_param s.1 d).2])
  | .add a b =>
      match s.2.get? a, s.2.get? b with
      | some ra, some rb => (add s.1 ra rb).map (fun p => (p.1, s.2 ++ [p.2]))
      | _, _ => none
  | .sub a b =>
      match s.2.get? a, s.2.get? b with
      | some ra, some rb => (sub s.1 ra rb).map (fun p => (p.1, s.2 ++ [p.2]))
      | _, _ => none
  | .mul a b =>
      match s.2.get? a, s.2.get? b with
      | some ra, some rb => (mul s.1 ra rb).map (fun p => (p.1, s.2 ++ [p.2]))
      | _, _ => none
  | .tdiv a b =>
      match s.2.get? a, s.2.get? b with
      | some ra, some rb => (true_div s.1 ra rb).map (fun p => (p.1, s.2 ++ [p.2]))
      | _, _ => none
  | .vpow a n =>
      match s.2.get? a with
      | some ra => (v_pow ops s.1 ra n).map (fun p => (p.1, s.2 ++ [p.2]))
      | none => none
  | .vdiv a b =>
      match s.2.get? a, s.2.get? b with
      | some ra, some rb => (v_div ops s.1 ra rb).map (fun p => (p.1, s.2 ++ [p.2]))
      | _, _ => none
  | .vexp a =>
      match s.2.get? a with
      | some ra => (v_exp ops s.1 ra).map (fun p => (p.1, s.2 ++ [p.2]))
      | none => none
  | .vtanh a =>
      match s.2.get? a with
      | some ra => (v_tanh ops s.1 ra).map (fun p => (p.1, s.2 ++ [p.2]))
      | none => none
  | .vrelu a =>
      match s.2.get? a with
      | some ra => (relu s.1 ra).map (fun p => (p.1, s.2 ++ [p.2]))
      | none => none

/-- Execute a straight-line program from a given state and environment. -/
def runTraceFrom (ops : ScalarOps) :
    List Instr → State × List Ref → Option (State × List Ref)
  | [], s => some s
  | ins :: rest, s => (stepTrace ops s ins).bind (runTraceFrom ops rest)

/-- Execute a straight-line program from the initial (empty) state. -/
def runTrace (ops : ScalarOps) (prog : List Instr) : Option (State × List Ref) :=
  runTraceFrom ops prog (emptyState, [])

/-! ### Verification-support definitions -/

/-- A handle actually refers to a live node. -/
def validRef (st : State) : Ref → Prop
  | .tape i => i < st.tape.length
  | .param i => i < st.params.length

/-- The structural (never mutated during backpropagation) part of a node. -/
def shape (nd : Node) : ℚ × Op × Option Ref × Option Ref :=
  (nd.data, nd.op, nd.prev0, nd.prev1)

/-- Two states with the same graph structure everywhere; only gradients may
differ. -/
def structEq (s1 s2 : State) : Prop :=
  s1.tape.length = s2.tape.length ∧ s1.params.length = s2.params.length ∧
    ∀ r, shape (getNode s1 r) = shape (getNode s2 r)

/-- The list of `(target, amount)` gradient increments a node's backward
rule performs, with every read taken from the pre-rule state.  Each backward
rule of the C code is exactly this batch of `+=`s; the reads it interleaves
between them cannot observe the earlier writes because a node is never its
own operand. -/
def contribsOf (ops : ScalarOps) (st : State) (r : Ref) : List (Ref × ℚ) :=
  let nd := getNode st r
  match nd.op, nd.prev0, nd.prev1 with
  | Op.add, some p0, some p1 =>
      [(p0, 1 * gradOf st r), (p1, 1 * gradOf st r)]
  | Op.sub, some p0, some p1 =>
      [(p0, 1 * gradOf st r), (p1, -(1 * gradOf st r))]
  | Op.mul, some p0, some p1 =>
      [(p0, dataOf st p1 * gradOf st r), (p1, dataOf st p0 * gradOf st r)]
  | Op.div, some p0, some p1 =>
      [(p0, (1 / dataOf st p1) * gradOf st r),
       (p1, (-dataOf st p0 / (dataOf st p1 * dataOf st p1)) * gradOf st r)]
  | Op.pow, some p0, some p1 =>
      [(p0, (dataOf st p1 * ops.powF (dataOf st p0) (dataOf st p1 - 1)) * gradOf st r)]
  | Op.exp, some p0, none => [(p0, dataOf st r * gradOf st r)]
  | Op.tanh, some p0, none => [(p0, (1 - dataOf st r * dataOf st r) * gradOf st r)]
  | Op.relu, some p0, none =>
      [(p0, (if dataOf st p0 > 0 then (1 : ℚ) else 0) * gradOf st r)]
  | _, _, _ => []

/-- Apply a batch of gradient increments left to right. -/
def applyContribs (st : State) (cs : List (Ref × ℚ)) : State :=
  cs.foldl (fun s pc => addGrad s pc.1 pc.2) st

/-- The total amount a rule firing adds to the gradient of `ρ`. -/
def contribTotal (ops : ScalarOps) (st : State) (r ρ : Ref) : ℚ :=
  (((contribsOf ops st r).filter (fun pc => pc.1 = ρ)).map Prod.snd).sum

/-- Tape node `c` consumes tape node `j`: `j` is one of `c`'s operands. -/
def consumes (st : State) (c j : ℕ) : Prop :=
  (getNode st (Ref.tape c)).prev0 = some (Ref.tape j) ∨
    (getNode st (Ref.tape c)).prev1 = some (Ref.tape j)

/-- Tape node `j` is an interior node (its `grad_fn` is not
`noop_backward`). -/
def interiorAt (st : State) (j : ℕ) : Prop :=
  (getNode st (Ref.tape j)).op ≠ Op.leaf

/-- A firing order is valid when no node fires before one of its consumers:
whenever `a` fires before `b`, `b` does not consume `a`. -/
def validOrder (st : State) (L : List ℕ) : Prop :=
  L.Pairwise (fun a b => ¬ consumes st b a)

/-- The operations that write into `prev[1]`'s gradient.  (`pow` reads
`prev[1]->data` but never writes `prev[1]->grad`.) -/
def writesPrev1 (o : Op) : Prop := o = Op.add ∨ o = Op.sub ∨ o = Op.mul ∨ o = Op.div

/-- One operand pointer respects the tape discipline for a node created at
index `c`: absent, a registered parameter, or an earlier tape node. -/
def childOK (st : State) (c : ℕ) : Option Ref → Bool
  | none => true
  | some (.tape j) => decide (j < c)
  | some (.param p) => decide (p < st.params.length)

/-- The spec's §3 invariant: every operand of every tape node is a
parameter or a strictly earlier tape node. -/
def WF (st : State) : Prop :=
  ∀ c < st.tape.length,
    childOK st c (getNode st (Ref.tape c)).prev0 = true ∧
      childOK st c (getNode st (Ref.tape c)).prev1 = true

/-- Tape node `j` is the exponent node some pow node stores as `prev[1]`. -/
def isExpAt (st : State) (j : ℕ) : Prop :=
  ∃ p, p < st.tape.length ∧ (getNode st (Ref.tape p)).op = Op.pow ∧
    (getNode st (Ref.tape p)).prev1 = some (Ref.tape j)

/-- Exponent nodes are reachable from nowhere the client can name: they are
not in the handle environment, are never `prev[0]` of any node, and are
`prev[1]` only of pow nodes. -/
def expProtected (st : State) (env : List Ref) : Prop :=
  ∀ j, isExpAt st j →
    Ref.tape j ∉ env ∧
      ∀ c, (getNode st (Ref.tape c)).prev0 ≠ some (Ref.tape j) ∧
        ((getNode st (Ref.tape c)).prev1 = some (Ref.tape j) →
          (getNode st (Ref.tape c)).op = Op.pow)

/-- Everything `runTrace` guarantees about a state and handle environment it
produces: the tape discipline, valid handles, zero gradients, and the
exponent-node facts. -/
def Inv (st : State) (env : List Ref) : Prop :=
  WF st ∧ (∀ r ∈ env, validRef st r) ∧
    (∀ i, gradOf st (Ref.tape i) = 0) ∧ (∀ p, gradOf st (Ref.param p) = 0) ∧
    expProtected st env

/-- Append one freshly initialised node to the tape (the common effect of
every successful `new_val`). -/
def pushNode (st : State) (nd : Node) : State := { st with tape := st.tape ++ [nd] }

/-- Invariant of the DFS state `(visited, topo)` between `build_topo` calls:
the post-order list is duplicate-free, contains only marked nodes, never
lists a node before one of its operands has been listed or marked, and the
operands of every listed node are marked. -/
def TopoInv (st : State) (vis topo : List ℕ) : Prop :=
  topo.Nodup ∧ (∀ x ∈ topo, x ∈ vis) ∧
    topo.Pairwise (fun a b => ¬ consumes st a b) ∧
    (∀ c ∈ topo, ∀ j, consumes st c j → interiorAt st j → j ∈ vis)

/-- What one `build_topo` call guarantees, relative to the DFS state `s` it
was entered with: the invariant still holds, the post-order list only grew,
the visited set only grew, the set of marked-but-not-listed nodes (the
recursion stack) is unchanged, and every newly marked node is `< bound`. -/
def TopoCall (st : State) (bound : ℕ) (s s2 : List ℕ × List ℕ) : Prop :=
  TopoInv st s2.1 s2.2 ∧ (∃ Δ, s2.2 = s.2 ++ Δ) ∧ (∀ x ∈ s.1, x ∈ s2.1) ∧
    (∀ x, (x ∈ s2.1 ∧ x ∉ s2.2) ↔ (x ∈ s.1 ∧ x ∉ s.2)) ∧
    (∀ x ∈ s2.1, x ∈ s.1 ∨ x < bound)

/-- The spec's fan-out example: `z = x * x` with `x = 3`. -/
def progC2 : List Instr := [.leaf 3, .mul 0 0]

/-- The spec's worked example, exactly as `demo_calculus` builds it:
`a = 3`, `b = 2`, `f = a^2 + 3*b - 5`. -/
def progC3 : List Instr :=
  [.leaf 3, .leaf 2, .vpow 0 2, .leaf 3, .mul 3 1, .add 2 4, .leaf (-5), .add 5 6]

/-- A pow node with base a leaf of data `3` and exponent `2`. -/
def progPow : List Instr := [.leaf 3, .vpow 0 2]

/-- Leaves `x`, `y` followed by the composed division `v_div`. -/
def progDivV (x y : ℚ) : List Instr := [.leaf x, .leaf y, .vdiv 0 1]

/-- Leaves `x`, `y` followed by the direct division `true_div`. -/
def progDivT (x y : ℚ) : List Instr := [.leaf x, .leaf y, .tdiv 0 1]

/-- Forward value of the division result plus both leaf gradients after a
backward pass from the division node. -/
def divObserve (prog : List Instr) (root : Ref) : Option (ℚ × ℚ × ℚ) :=
  (runTrace ratOps prog).map (fun se =>
    (dataOf se.1 root,
     gradOf (backward ratOps se.1 root true) (Ref.tape 0),
     gradOf (backward ratOps se.1 root true) (Ref.tape 1)))

/-- A state whose tape already holds exactly `MAX_TAPE_SIZE` nodes. -/
def fullState : State := ⟨List.replicate MAX_TAPE_SIZE default, []⟩

/-- `fullState` after one further allocation: the new node sits at index
`MAX_TAPE_SIZE`, which in the C program is one past the end of
`tape_memory`. -/
def fullStatePlus : State :=
  ⟨List.replicate MAX_TAPE_SIZE default ++ [⟨1, 0, Op.leaf, none, none⟩], []⟩

/-- The state `runTrace` produces for `progC2` (`x = 3`, `z = x * x`). -/
def stateC2 : State :=
  ⟨[⟨3, 0, Op.leaf, none, none⟩,
    ⟨9, 0, Op.mul, some (Ref.tape 0), some (Ref.tape 0)⟩], []⟩

/-- The handle environment `runTrace` produces for `progC2`. -/
def envC2 : List Ref := [Ref.tape 0, Ref.tape 1]

/-- The state `runTrace` produces for `progPow` (`x = 3`, `x ^ 2`): the
exponent `2` occupies tape slot 1 as a node of its own. -/
def statePow : State :=
  ⟨[⟨3, 0, Op.leaf, none, none⟩,
    ⟨2, 0, Op.leaf, none, none⟩,
    ⟨9, 0, Op.pow, some (Ref.tape 0), some (Ref.tape 1)⟩], []⟩

/-- The handle environment for `progPow`: the exponent node has no handle. -/
def envPow : List Ref := [Ref.tape 0, Ref.tape 2]

/-- One leaf of data `7` on the tape. -/
def stC5a : State := ⟨[⟨7, 0, Op.leaf, none, none⟩], []⟩

/-- One leaf of data `42` on the tape (allocated after a reset). -/
def stC5b : State := ⟨[⟨42, 0, Op.leaf, none, none⟩], []⟩

/-- The state `runTrace` produces for `progDivV x y`: the composed division
allocates the exponent `-1` (slot 2), the reciprocal pow node (slot 3) and
the product (slot 4). -/
def stDivV (x y : ℚ) : State :=
  ⟨[⟨x, 0, Op.leaf, none, none⟩,
    ⟨y, 0, Op.leaf, none, none⟩,
    ⟨-1, 0, Op.leaf, none, none⟩,
    ⟨ratPow y (-1), 0, Op.pow, some (Ref.tape 1), some (Ref.tape 2)⟩,
    ⟨x * ratPow y (-1), 0, Op.mul, some (Ref.tape 0), some (Ref.tape 3)⟩], []⟩

/-- The state `runTrace` produces for `progDivT x y`: one div node over the
two leaves. -/
def stDivT (x y : ℚ) : State :=
  ⟨[⟨x, 0, Op.leaf, none, none⟩,
    ⟨y, 0, Op.leaf, none, none⟩,
    ⟨x / y, 0, Op.div, some (Ref.tape 0), some (Ref.tape 1)⟩], []⟩

/-! ### List helpers -/

theorem getD_oob {α : Type} {l : List α} {i : ℕ} (h : l.length ≤ i) (d : α) :
    l.getD i d = d := by
  induction l generalizing i with
  | nil => simp [List.getD]
  | cons a t ih =>
    cases i with
    | zero => simp at h
    | succ j => simpa [List.getD] using ih (Nat.le_of_succ_le_succ h)

theorem getD_set_self {α : Type} {l : List α} {i : ℕ} (h : i < l.length) (x d : α) :
    (l.set i x).getD i d = x := by
  induction l generalizing i with
  | nil => simp at h
  | cons a t ih =>
    cases i with
    | zero => simp [List.getD]
    | succ j => simpa [List.getD] using ih (Nat.lt_of_succ_lt_succ h)

theorem getD_set_ne {α : Type} {l : List α} {i j : ℕ} (h : i ≠ j) (x d : α) :
    (l.set i x).getD j d = l.getD j d := by
  induction l generalizing i j with
  | nil => simp
  | cons a t ih =>
    cases i with
    | zero =>
      cases j with
      | zero => exact absurd rfl h
      | succ j2 => simp [List.getD]
    | succ i2 =>
      cases j with
      | zero => simp [List.getD]
      | succ j2 => simpa [List.getD] using ih (fun hc => h (by simp [hc]))

theorem set_oob {α : Type} {l : List α} {i : ℕ} (h : l.length ≤ i) (x : α) :
    l.set i x = l := by
  induction l generalizing i with
  | nil => simp
  | cons a t ih =>
    cases i with
    | zero => simp at h
    | succ j => simpa using ih (Nat.le_of_succ_le_succ h)

theorem set_getD_self {α : Type} {l : List α} {i : ℕ} {d : α} :
    l.set i (l.getD i d) = l := by
  induction l generalizing i with
  | nil => simp
  | cons a t ih =>
    cases i with
    | zero => simp [List.getD]
    | succ j => simpa [List.getD] using ih

theorem getD_append_lt {α : Type} {l l2 : List α} {i : ℕ} (h : i < l.length) (d : α) :
    (l ++ l2).getD i d = l.getD i d := by
  induction l generalizing i with
  | nil => simp at h
  | cons a t ih =>
    cases i with
    | zero => simp [List.getD]
    | succ j => simpa [List.getD] using ih (Nat.lt_of_succ_lt_succ h)

theorem getD_append_len {α : Type} {l : List α} {x d : α} :
    (l ++ [x]).getD l.length d = x := by
  induction l with
  | nil => simp [List.getD]
  | cons a t ih => simp [List.getD]

theorem set_append_len {α : Type} {l : List α} {x y : α} :
    (l ++ [x]).set l.length y = l ++ [y] := by
  induction l with
  | nil => simp
  | cons a t ih => simp

/-! ### Handles, reads and writes -/

theorem getNode_mapRef_ne {st : State} {r ρ : Ref} {f : Node → Node} (h : ρ ≠ r) :
    getNode (mapRef st r f) ρ = getNode st ρ := by
  cases r with
  | tape i =>
    cases ρ with
    | tape j =>
      have hij : i ≠ j := fun hc => h (by simp [hc])
      show (st.tape.set i (f (st.tape.getD i default))).getD j default
          = st.tape.getD j default
      exact getD_set_ne hij _ _
    | param j => rfl
  | param i =>
    cases ρ with
    | tape j => rfl
    | param j =>
      have hij : i ≠ j := fun hc => h (by simp [hc])
      show (st.params.set i (f (st.params.getD i default))).getD j default
          = st.params.getD j default
      exact getD_set_ne hij _ _

theorem getNode_mapRef_self {st : State} {r : Ref} {f : Node → Node}
    (h : validRef st r) : getNode (mapRef st r f) r = f (getNode st r) := by
  cases r with
  | tape i => simp only [getNode, mapRef]; exact getD_set_self h _ _
  | param i => simp only [getNode, mapRef]; exact getD_set_self h _ _

theorem mapRef_oob {st : State} {r : Ref} {f : Node → Node}
    (h : ¬ validRef st r) : mapRef st r f = st := by
  cases st with
  | mk t p =>
    cases r with
    | tape i => simp only [mapRef]; rw [set_oob (Nat.le_of_not_lt h)]
    | param i => simp only [mapRef]; rw [set_oob (Nat.le_of_not_lt h)]

theorem tape_length_mapRef {st : State} {r : Ref} {f : Node → Node} :
    (mapRef st r f).tape.length = st.tape.length := by
  cases r <;> simp [mapRef]

theorem params_length_mapRef {st : State} {r : Ref} {f : Node → Node} :
    (mapRef st r f).params.length = st.params.length := by
  cases r <;> simp [mapRef]

theorem validRef_mapRef {st : State} {r ρ : Ref} {f : Node → Node} :
    validRef (mapRef st r f) ρ ↔ validRef st ρ := by
  cases ρ <;> simp [validRef, tape_length_mapRef, params_length_mapRef]

theorem structEq_refl (s : State) : structEq s s := ⟨rfl, rfl, fun _ => rfl⟩

theorem structEq_trans {s1 s2 s3 : State} (h1 : structEq s1 s2)
    (h2 : structEq s2 s3) : structEq s1 s3 :=
  ⟨h1.1.trans h2.1, h1.2.1.trans h2.2.1, fun r => (h1.2.2 r).trans (h2.2.2 r)⟩

theorem structEq_symm {s1 s2 : State} (h : structEq s1 s2) : structEq s2 s1 :=
  ⟨h.1.symm, h.2.1.symm, fun r => (h.2.2 r).symm⟩

theorem structEq.dataOf {s1 s2 : State} (h : structEq s1 s2) (r : Ref) :
    dataOf s1 r = dataOf s2 r := congrArg (fun q => q.1) (h.2.2 r)

theorem structEq.opOf {s1 s2 : State} (h : structEq s1 s2) (r : Ref) :
    (getNode s1 r).op = (getNode s2 r).op := congrArg (fun q => q.2.1) (h.2.2 r)

theorem structEq.prev0Of {s1 s2 : State} (h : structEq s1 s2) (r : Ref) :
    (getNode s1 r).prev0 = (getNode s2 r).prev0 := congrArg (fun q => q.2.2.1) (h.2.2 r)

theorem structEq.prev1Of {s1 s2 : State} (h : structEq s1 s2) (r : Ref) :
    (getNode s1 r).prev1 = (getNode s2 r).prev1 := congrArg (fun q => q.2.2.2) (h.2.2 r)

theorem structEq.validRef {s1 s2 : State} (h : structEq s1 s2) (r : Ref) :
    validRef s1 r ↔ validRef s2 r := by
  cases r with
  | tape i => simp [Micrograd.validRef, h.1]
  | param i => simp [Micrograd.validRef, h.2.1]

theorem structEq_mapRef_grad {st : State} {r : Ref} {g : Node → ℚ} :
    structEq st (mapRef st r (fun nd => { nd with grad := g nd })) := by
  refine ⟨tape_length_mapRef.symm, params_length_mapRef.symm, fun ρ => ?_⟩
  by_cases hr : ρ = r
  · subst hr
    by_cases hv : validRef st ρ
    · rw [getNode_mapRef_self hv]; rfl
    · rw [mapRef_oob hv]
  · rw [getNode_mapRef_ne hr]

theorem structEq_addGrad {st : State} {r : Ref} {d : ℚ} :
    structEq st (addGrad st r d) := structEq_mapRef_grad

theorem gradOf_addGrad_ne {st : State} {r ρ : Ref} {d : ℚ} (h : ρ ≠ r) :
    gradOf (addGrad st r d) ρ = gradOf st ρ := by
  simp [gradOf, addGrad, getNode_mapRef_ne h]

theorem gradOf_addGrad_self {st : State} {r : Ref} {d : ℚ} (h : validRef st r) :
    gradOf (addGrad st r d) r = gradOf st r + d := by
  simp [gradOf, addGrad, getNode_mapRef_self h]

theorem dataOf_addGrad {st : State} {r ρ : Ref} {d : ℚ} :
    dataOf (addGrad st r d) ρ = dataOf st ρ :=
  (structEq.dataOf structEq_addGrad ρ).symm

theorem mapRef_congr {st : State} {r : Ref} {f g : Node → Node}
    (h : ∀ nd, f nd = g nd) : mapRef st r f = mapRef st r g := by
  cases r with
  | tape i => simp only [mapRef]; rw [h]
  | param i => simp only [mapRef]; rw [h]

theorem mapRef_id {st : State} {r : Ref} : mapRef st r (fun nd => nd) = st := by
  cases st with
  | mk t p =>
    cases r with
    | tape i =>
      show State.mk (t.set i (t.getD i default)) p = State.mk t p
      rw [set_getD_self]
    | param i =>
      show State.mk t (p.set i (p.getD i default)) = State.mk t p
      rw [set_getD_self]

theorem addGrad_zero {st : State} {r : Ref} : addGrad st r 0 = st := by
  have h : addGrad st r 0 = mapRef st r (fun nd => nd) :=
    mapRef_congr (fun nd => by cases nd; simp)
  rw [h, mapRef_id]

/-! ### Backward rules as increment batches -/

theorem validRef_addGrad {st : State} {r ρ : Ref} {d : ℚ} :
    validRef (addGrad st r d) ρ ↔ validRef st ρ := validRef_mapRef

theorem applyContribs_cons {st : State} {c : Ref × ℚ} {t : List (Ref × ℚ)} :
    applyContribs st (c :: t) = applyContribs (addGrad st c.1 c.2) t := rfl

theorem structEq_applyContribs {cs : List (Ref × ℚ)} {st : State} :
    structEq st (applyContribs st cs) := by
  induction cs generalizing st with
  | nil => exact structEq_refl st
  | cons c t ih => exact structEq_trans structEq_addGrad (applyContribs_cons ▸ ih)

theorem gradOf_applyContribs_ne {cs : List (Ref × ℚ)} {st : State} {ρ : Ref}
    (h : ∀ pc ∈ cs, pc.1 ≠ ρ) :
    gradOf (applyContribs st cs) ρ = gradOf st ρ := by
  induction cs generalizing st with
  | nil => rfl
  | cons c t ih =>
    rw [applyContribs_cons, ih (fun pc hm => h pc (List.mem_cons_of_mem c hm)),
      gradOf_addGrad_ne (Ne.symm (h c (List.mem_cons_self c t)))]

theorem gradOf_applyContribs_sum {cs : List (Ref × ℚ)} {st : State} {ρ : Ref}
    (hv : validRef st ρ) :
    gradOf (applyContribs st cs) ρ
      = gradOf st ρ + ((cs.filter (fun pc => pc.1 = ρ)).map Prod.snd).sum := by
  induction cs generalizing st with
  | nil => simp [applyContribs]
  | cons c t ih =>
    rw [applyContribs_cons, ih (validRef_addGrad.mpr hv)]
    by_cases hc : c.1 = ρ
    · rw [hc, gradOf_addGrad_self hv]
      simp [List.filter_cons, hc, add_assoc]
    · rw [gradOf_addGrad_ne (Ne.symm hc)]
      simp [List.filter_cons, hc]

theorem runRule_eq_applyContribs {ops : ScalarOps} {st : State} {r : Ref}
    (h : (getNode st r).prev0 ≠ some r) :
    runRule ops st r = applyContribs st (contribsOf ops st r) := by
  have hne : ∀ p0 : Ref, (getNode st r).prev0 = some p0 → r ≠ p0 :=
    fun p0 hp0 hc => h (by rw [hp0, hc])
  cases hop : (getNode st r).op <;>
    cases hp0 : (getNode st r).prev0 <;>
      cases hp1 : (getNode st r).prev1 <;>
        simp only [runRule, contribsOf, applyContribs, hop, hp0, hp1, List.foldl] <;>
        first
          | rfl
          | rw [gradOf_addGrad_ne (hne _ hp0), dataOf_addGrad]
          | rw [gradOf_addGrad_ne (hne _ hp0)]

theorem gradOf_runRule_ne {ops : ScalarOps} {st : State} {r : Ref} {ρ : Ref}
    (h0 : (getNode st r).prev0 ≠ some ρ)
    (h1 : writesPrev1 (getNode st r).op → (getNode st r).prev1 ≠ some ρ) :
    gradOf (runRule ops st r) ρ = gradOf st ρ := by
  have g0 : ∀ p0 : Ref, (getNode st r).prev0 = some p0 → ρ ≠ p0 :=
    fun p0 hp hc => h0 (by rw [hp, hc])
  have g1 : ∀ p1 : Ref, (getNode st r).prev1 = some p1 →
      writesPrev1 (getNode st r).op → ρ ≠ p1 :=
    fun p1 hp hw hc => h1 hw (by rw [hp, hc])
  cases hop : (getNode st r).op <;>
    cases hp0 : (getNode st r).prev0 <;>
      cases hp1 : (getNode st r).prev1 <;>
        simp only [runRule, hop, hp0, hp1] <;>
        first
          | rfl
          | rw [gradOf_addGrad_ne (g1 _ hp1 (by simp [writesPrev1, hop])),
              gradOf_addGrad_ne (g0 _ hp0)]
          | rw [gradOf_addGrad_ne (g0 _ hp0)]

theorem runRule_zero {ops : ScalarOps} {st : State} {r : Ref}
    (h : gradOf st r = 0) : runRule ops st r = st := by
  cases hop : (getNode st r).op <;>
    cases hp0 : (getNode st r).prev0 <;>
      cases hp1 : (getNode st r).prev1 <;>
        simp [runRule, hop, hp0, hp1, h, addGrad_zero]

theorem runRule_leaf {ops : ScalarOps} {st : State} {r : Ref}
    (h : (getNode st r).op = Op.leaf) : runRule ops st r = st := by
  cases hp0 : (getNode st r).prev0 <;>
    cases hp1 : (getNode st r).prev1 <;>
      simp only [runRule, h, hp0, hp1]

theorem structEq_runRule {ops : ScalarOps} {st : State} {r : Ref} :
    structEq st (runRule ops st r) := by
  cases hop : (getNode st r).op <;>
    cases hp0 : (getNode st r).prev0 <;>
      cases hp1 : (getNode st r).prev1 <;>
        simp only [runRule, hop, hp0, hp1] <;>
        first
          | exact structEq_refl st
          | exact structEq_trans structEq_addGrad structEq_addGrad
          | exact structEq_addGrad

theorem gradOf_runRule_total {ops : ScalarOps} {st : State} {r ρ : Ref}
    (hv : validRef st ρ) (h : (getNode st r).prev0 ≠ some r) :
    gradOf (runRule ops st r) ρ = gradOf st ρ + contribTotal ops st r ρ := by
  rw [runRule_eq_applyContribs h, gradOf_applyContribs_sum hv]; rfl

/-! ### Firing lists: commutation and order invariance -/

theorem runList_nil {ops : ScalarOps} {st : State} : runList ops st [] = st := rfl

theorem runList_cons {ops : ScalarOps} {st : State} {i : ℕ} {L : List ℕ} :
    runList ops st (i :: L) = runList ops (runRule ops st (Ref.tape i)) L := rfl

theorem runList_append {ops : ScalarOps} {st : State} {L1 L2 : List ℕ} :
    runList ops st (L1 ++ L2) = runList ops (runList ops st L1) L2 :=
  List.foldl_append _ _ _ _

theorem structEq_runList {ops : ScalarOps} {L : List ℕ} {st : State} :
    structEq st (runList ops st L) := by
  induction L generalizing st with
  | nil => exact structEq_refl st
  | cons i t ih => exact structEq_trans structEq_runRule (runList_cons ▸ ih)

/-- No tape node is its own first operand (a consequence of the tape
discipline, but true of any state the sweeps are run on). -/
def noSelfLoop (st : State) : Prop :=
  ∀ k : ℕ, (getNode st (Ref.tape k)).prev0 ≠ some (Ref.tape k)

theorem consumes_structEq {s1 s2 : State} (h : structEq s1 s2) {a b : ℕ} :
    consumes s1 a b ↔ consumes s2 a b := by
  unfold consumes
  rw [h.prev0Of, h.prev1Of]

theorem interiorAt_structEq {s1 s2 : State} (h : structEq s1 s2) {a : ℕ} :
    interiorAt s1 a ↔ interiorAt s2 a := by
  unfold interiorAt
  rw [h.opOf]

theorem noSelfLoop_structEq {s1 s2 : State} (h : structEq s1 s2) :
    noSelfLoop s1 ↔ noSelfLoop s2 := by
  unfold noSelfLoop
  refine forall_congr' (fun k => ?_)
  rw [h.prev0Of]

theorem validOrder_structEq {s1 s2 : State} (h : structEq s1 s2) {L : List ℕ} :
    validOrder s1 L ↔ validOrder s2 L := by
  unfold validOrder
  refine List.Pairwise.iff (fun a b => ?_)
  rw [not_iff_not]
  exact consumes_structEq h

theorem contribs_targets {ops : ScalarOps} {st : State} {r : Ref} :
    ∀ pc ∈ contribsOf ops st r,
      (getNode st r).prev0 = some pc.1 ∨ (getNode st r).prev1 = some pc.1 := by
  cases hop : (getNode st r).op <;>
    cases hp0 : (getNode st r).prev0 <;>
      cases hp1 : (getNode st r).prev1 <;>
        intro pc hm <;>
          simp only [contribsOf, hop, hp0, hp1, List.mem_cons, List.mem_singleton,
            List.not_mem_nil, or_false] at hm <;>
          first
            | exact hm.elim
            | exact hm.elim (fun h => Or.inl (by rw [h])) (fun h => Or.inr (by rw [h]))
            | exact Or.inl (by rw [hm])

theorem contribs_congr {ops : ScalarOps} {s1 s2 : State} {r : Ref}
    (hst : structEq s1 s2) (hg : gradOf s1 r = gradOf s2 r) :
    contribsOf ops s1 r = contribsOf ops s2 r := by
  have e0 := hst.opOf r
  have e1 := hst.prev0Of r
  have e2 := hst.prev1Of r
  cases hop : (getNode s1 r).op <;>
    cases hp0 : (getNode s1 r).prev0 <;>
      cases hp1 : (getNode s1 r).prev1 <;>
        simp only [contribsOf, hop, hp0, hp1, hop ▸ e0.symm, hp0 ▸ e1.symm,
          hp1 ▸ e2.symm, hg, hst.dataOf]

theorem addGrad_comm {st : State} {r1 r2 : Ref} {d1 d2 : ℚ} :
    addGrad (addGrad st r1 d1) r2 d2 = addGrad (addGrad st r2 d2) r1 d1 := by
  by_cases h : r1 = r2
  · subst h
    by_cases hv : validRef st r1
    · cases st with
      | mk t p =>
        cases r1 with
        | tape i =>
          simp only [addGrad, mapRef]
          rw [getD_set_self hv, getD_set_self hv, List.set_set, List.set_set]
          simp [add_right_comm]
        | param i =>
          simp only [addGrad, mapRef]
          rw [getD_set_self hv, getD_set_self hv, List.set_set, List.set_set]
          simp [add_right_comm]
    · have h1 : addGrad st r1 d1 = st := mapRef_oob hv
      have h2 : addGrad st r1 d2 = st := mapRef_oob hv
      simp only [h1, h2]
  · cases st with
    | mk t p =>
      cases r1 with
      | tape i =>
        cases r2 with
        | tape j =>
          have hij : i ≠ j := fun hc => h (by rw [hc])
          simp only [addGrad, mapRef]
          rw [getD_set_ne hij, getD_set_ne hij.symm, List.set_comm _ _ _ hij]
        | param j => rfl
      | param i =>
        cases r2 with
        | tape j => rfl
        | param j =>
          have hij : i ≠ j := fun hc => h (by rw [hc])
          simp only [addGrad, mapRef]
          rw [getD_set_ne hij, getD_set_ne hij.symm, List.set_comm _ _ _ hij]

theorem applyContribs_addGrad {st : State} {r : Ref} {d : ℚ} {cs : List (Ref × ℚ)} :
    applyContribs (addGrad st r d) cs = addGrad (applyContribs st cs) r d := by
  induction cs generalizing st with
  | nil => rfl
  | cons c t ih => rw [applyContribs_cons, applyContribs_cons, addGrad_comm, ih]

theorem applyContribs_comm {st : State} {c1 c2 : List (Ref × ℚ)} :
    applyContribs (applyContribs st c1) c2 = applyContribs (applyContribs st c2) c1 := by
  induction c1 generalizing st with
  | nil => rfl
  | cons c t ih =>
    rw [applyContribs_cons, ih, applyContribs_cons, applyContribs_addGrad]

theorem runRule_comm {ops : ScalarOps} {st : State} {a b : ℕ}
    (hsa : (getNode st (Ref.tape a)).prev0 ≠ some (Ref.tape a))
    (hsb : (getNode st (Ref.tape b)).prev0 ≠ some (Ref.tape b))
    (hab : ¬ consumes st a b) (hba : ¬ consumes st b a) :
    runRule ops (runRule ops st (Ref.tape a)) (Ref.tape b)
      = runRule ops (runRule ops st (Ref.tape b)) (Ref.tape a) := by
  by_cases heq : a = b
  · subst heq; rfl
  have hta : ∀ pc ∈ contribsOf ops st (Ref.tape a), pc.1 ≠ Ref.tape b := by
    intro pc hm hc
    rcases contribs_targets pc hm with h | h
    · exact hab (Or.inl (hc ▸ h))
    · exact hab (Or.inr (hc ▸ h))
  have htb : ∀ pc ∈ contribsOf ops st (Ref.tape b), pc.1 ≠ Ref.tape a := by
    intro pc hm hc
    rcases contribs_targets pc hm with h | h
    · exact hba (Or.inl (hc ▸ h))
    · exact hba (Or.inr (hc ▸ h))
  have hCa : structEq st (applyContribs st (contribsOf ops st (Ref.tape a))) :=
    structEq_applyContribs
  have hCb : structEq st (applyContribs st (contribsOf ops st (Ref.tape b))) :=
    structEq_applyContribs
  rw [runRule_eq_applyContribs hsa, runRule_eq_applyContribs hsb]
  rw [runRule_eq_applyContribs (fun hc => hsb ((hCa.prev0Of (Ref.tape b)) ▸ hc))]
  rw [runRule_eq_applyContribs (fun hc => hsa ((hCb.prev0Of (Ref.tape a)) ▸ hc))]
  rw [← contribs_congr hCa (Eq.symm (gradOf_applyContribs_ne hta))]
  rw [← contribs_congr hCb (Eq.symm (gradOf_applyContribs_ne htb))]
  exact applyContribs_comm

theorem runList_bubble {ops : ScalarOps} {a : ℕ} :
    ∀ (U : List ℕ) (st : State), noSelfLoop st →
      (∀ u ∈ U, ¬ consumes st a u ∧ ¬ consumes st u a) →
      ∀ V, runList ops st (U ++ a :: V) = runList ops st (a :: (U ++ V)) := by
  intro U
  induction U with
  | nil => intro st hns hcond V; rfl
  | cons u U2 ih =>
    intro st hns hcond V
    have hse : structEq st (runRule ops st (Ref.tape u)) := structEq_runRule
    have step : runList ops (runRule ops st (Ref.tape u)) (U2 ++ a :: V)
        = runList ops (runRule ops st (Ref.tape u)) (a :: (U2 ++ V)) := by
      refine ih (runRule ops st (Ref.tape u)) ((noSelfLoop_structEq hse).mp hns)
        (fun x hx => ?_) V
      exact ⟨fun hc => (hcond x (List.mem_cons_of_mem u hx)).1
          ((consumes_structEq hse).mpr hc),
        fun hc => (hcond x (List.mem_cons_of_mem u hx)).2
          ((consumes_structEq hse).mpr hc)⟩
    show runList ops (runRule ops st (Ref.tape u)) (U2 ++ a :: V) = _
    rw [step]
    show runList ops (runRule ops (runRule ops st (Ref.tape u)) (Ref.tape a)) (U2 ++ V)
      = runList ops (runRule ops (runRule ops st (Ref.tape a)) (Ref.tape u)) (U2 ++ V)
    rw [runRule_comm (hns u) (hns a) ((hcond u (List.mem_cons_self u U2)).2)
      ((hcond u (List.mem_cons_self u U2)).1)]

theorem runList_perm {ops : ScalarOps} :
    ∀ (L1 L2 : List ℕ) (st : State), noSelfLoop st →
      L1.Nodup → L2.Nodup → (∀ x, x ∈ L1 ↔ x ∈ L2) →
      validOrder st L1 → validOrder st L2 →
      runList ops st L1 = runList ops st L2 := by
  intro L1
  induction L1 with
  | nil =>
    intro L2 st hns hn1 hn2 hmem hv1 hv2
    cases L2 with
    | nil => rfl
    | cons y t => exact absurd ((hmem y).mpr (List.mem_cons_self y t)) (by simp)
  | cons a T1 ih =>
    intro L2 st hns hn1 hn2 hmem hv1 hv2
    have haL2 : a ∈ L2 := (hmem a).mp (List.mem_cons_self a T1)
    obtain ⟨U, V, rfl⟩ := List.append_of_mem haL2
    have hnodupU : U.Nodup := (List.nodup_append.mp hn2).1
    have hnodupAV : (a :: V).Nodup := (List.nodup_append.mp hn2).2.1
    have hdisj : ∀ x ∈ U, x ∉ a :: V := by
      intro x hx
      exact fun hc => (List.nodup_append.mp hn2).2.2 hx hc
    have haU : a ∉ U := fun hc => hdisj a hc (List.mem_cons_self a V)
    have haV : a ∉ V := (List.nodup_cons.mp hnodupAV).1
    have haT1 : a ∉ T1 := (List.nodup_cons.mp hn1).1
    -- every element of U is strictly later than a in L1, strictly earlier in L2
    have hcond : ∀ u ∈ U, ¬ consumes st a u ∧ ¬ consumes st u a := by
      intro u hu
      have huT1 : u ∈ T1 := by
        have : u ∈ a :: T1 := (hmem u).mpr (by simp [hu])
        rcases List.mem_cons.mp this with h | h
        · exact absurd (h ▸ hu) haU
        · exact h
      constructor
      · -- u before a in L2: the pairwise relation there says a does not consume u
        have := (List.pairwise_append.mp hv2).2.2 u hu a (List.mem_cons_self a V)
        exact this
      · -- a before u in L1
        have := (List.pairwise_cons.mp hv1).1 u huT1
        exact this
    have hbub := @runList_bubble ops _ U st hns hcond V
    rw [hbub]
    rw [runList_cons, runList_cons]
    have hse : structEq st (runRule ops st (Ref.tape a)) := structEq_runRule
    refine ih (U ++ V) (runRule ops st (Ref.tape a))
      ((noSelfLoop_structEq hse).mp hns)
      (List.nodup_cons.mp hn1).2
      (List.nodup_append.mpr ⟨hnodupU, (List.nodup_cons.mp hnodupAV).2,
        fun x hx hc => hdisj x hx (List.mem_cons_of_mem a hc)⟩)
      (fun x => ?_) ?_ ?_
    · constructor
      · intro hx
        have hxa : x ≠ a := fun hc => haT1 (hc ▸ hx)
        have : x ∈ U ++ a :: V := (hmem x).mp (List.mem_cons_of_mem a hx)
        rcases List.mem_append.mp this with h | h
        · exact List.mem_append.mpr (Or.inl h)
        · rcases List.mem_cons.mp h with h | h
          · exact absurd h hxa
          · exact List.mem_append.mpr (Or.inr h)
      · intro hx
        have hxa : x ≠ a := by
          rcases List.mem_append.mp hx with h | h
          · exact fun hc => haU (hc ▸ h)
          · exact fun hc => haV (hc ▸ h)
        have : x ∈ U ++ a :: V := by
          rcases List.mem_append.mp hx with h | h
          · exact List.mem_append.mpr (Or.inl h)
          · exact List.mem_append.mpr (Or.inr (List.mem_cons_of_mem a h))
        rcases List.mem_cons.mp ((hmem x).mpr this) with h | h
        · exact absurd h hxa
        · exact h
    · exact (validOrder_structEq hse).mp (List.pairwise_cons.mp hv1).2
    · refine (validOrder_structEq hse).mp ?_
      refine List.Pairwise.sublist ?_ hv2
      exact List.Sublist.append_left (List.sublist_cons_self a V) U

/-! ### Consequences of the tape discipline -/

theorem consumes_lt {st : State} (hwf : WF st) {c j : ℕ}
    (h : consumes st c j) : j < c := by
  by_cases hc : c < st.tape.length
  · have hok := hwf c hc
    rcases h with h | h
    · have := hok.1
      rw [h] at this
      simpa [childOK] using this
    · have := hok.2
      rw [h] at this
      simpa [childOK] using this
  · have hdef : getNode st (Ref.tape c) = default :=
      getD_oob (Nat.le_of_not_lt hc) _
    rcases h with h | h <;> rw [hdef] at h <;> exact Option.noConfusion h

theorem WF_noSelfLoop {st : State} (hwf : WF st) : noSelfLoop st :=
  fun k hc => absurd (consumes_lt hwf (Or.inl hc)) (lt_irrefl k)

theorem WF_structEq {s1 s2 : State} (h : structEq s1 s2) (hwf : WF s1) : WF s2 := by
  intro c hc
  have hc1 : c < s1.tape.length := h.1 ▸ hc
  have := hwf c hc1
  constructor
  · rw [← h.prev0Of (Ref.tape c)]
    have hpl : s2.params.length = s1.params.length := h.2.1.symm
    cases hp : (getNode s1 (Ref.tape c)).prev0 with
    | none => simp [childOK]
    | some r =>
      cases r with
      | tape j => rw [hp] at this; exact this.1
      | param p => rw [hp] at this; simpa [childOK, hpl] using this.1
  · rw [← h.prev1Of (Ref.tape c)]
    have hpl : s2.params.length = s1.params.length := h.2.1.symm
    cases hp : (getNode s1 (Ref.tape c)).prev1 with
    | none => simp [childOK]
    | some r =>
      cases r with
      | tape j => rw [hp] at this; exact this.2
      | param p => rw [hp] at this; simpa [childOK, hpl] using this.2

/-! ### Unreachable work is a no-op -/

theorem runList_eq_filter {ops : ScalarOps} {st0 : State} {T : List ℕ}
    (hclosed : ∀ c ∈ T, ∀ j, consumes st0 c j → interiorAt st0 j → j ∈ T) :
    ∀ (L : List ℕ) (st : State), structEq st0 st →
      (∀ j, interiorAt st0 j → j ∉ T → gradOf st (Ref.tape j) = 0) →
      runList ops st L = runList ops st (L.filter (fun x => decide (x ∈ T))) := by
  intro L
  induction L with
  | nil => intro st hse hz; rfl
  | cons k L2 ih =>
    intro st hse hz
    by_cases hk : k ∈ T
    · have hfilter : (k :: L2).filter (fun x => decide (x ∈ T))
          = k :: L2.filter (fun x => decide (x ∈ T)) := by
        simp [List.filter_cons, hk]
      rw [hfilter, runList_cons, runList_cons]
      refine ih (runRule ops st (Ref.tape k))
        (structEq_trans hse structEq_runRule) (fun j hj hjT => ?_)
      rw [← hz j hj hjT]
      refine gradOf_runRule_ne (fun hc => ?_) (fun _ hc => ?_)
      · have hcon : consumes st0 k j :=
          Or.inl (by rw [hse.prev0Of (Ref.tape k)]; exact hc)
        exact hjT (hclosed k hk j hcon hj)
      · have hcon : consumes st0 k j :=
          Or.inr (by rw [hse.prev1Of (Ref.tape k)]; exact hc)
        exact hjT (hclosed k hk j hcon hj)
    · have hfilter : (k :: L2).filter (fun x => decide (x ∈ T))
          = L2.filter (fun x => decide (x ∈ T)) := by
        simp [List.filter_cons, hk]
      have hid : runRule ops st (Ref.tape k) = st := by
        by_cases hint : interiorAt st0 k
        · exact runRule_zero (hz k hint hk)
        · refine runRule_leaf ?_
          have hleaf : (getNode st0 (Ref.tape k)).op = Op.leaf := not_not.mp hint
          rw [← hse.opOf (Ref.tape k)]
          exact hleaf
      rw [hfilter, runList_cons, hid]
      exact ih st hse hz

/-! ### The DFS traversal -/

theorem TopoCall_refl {st : State} {bound : ℕ} {s : List ℕ × List ℕ}
    (h : TopoInv st s.1 s.2) : TopoCall st bound s s :=
  ⟨h, ⟨[], by simp⟩, fun _ hx => hx, fun _ => Iff.rfl, fun _ hx => Or.inl hx⟩

theorem TopoCall_trans {st : State} {bound : ℕ} {s s2 s3 : List ℕ × List ℕ}
    (h1 : TopoCall st bound s s2) (h2 : TopoCall st bound s2 s3) :
    TopoCall st bound s s3 := by
  obtain ⟨i1, ⟨d1, hd1⟩, m1, e1, b1⟩ := h1
  obtain ⟨i2, ⟨d2, hd2⟩, m2, e2, b2⟩ := h2
  exact ⟨i2, ⟨d1 ++ d2, by rw [hd2, hd1, List.append_assoc]⟩,
    fun x hx => m2 x (m1 x hx), fun x => (e2 x).trans (e1 x),
    fun x hx => (b2 x hx).elim (fun h => b1 x h) Or.inr⟩

theorem TopoCall_mono {st : State} {b1 b2 : ℕ} {s s2 : List ℕ × List ℕ}
    (hb : b1 ≤ b2) (h : TopoCall st b1 s s2) : TopoCall st b2 s s2 :=
  ⟨h.1, h.2.1, h.2.2.1, h.2.2.2.1,
    fun x hx => (h.2.2.2.2 x hx).imp id (fun hl => lt_of_lt_of_le hl hb)⟩

theorem build_topo_tape {t : List Node} {fuel : ℕ} {i : ℕ} {s : List ℕ × List ℕ} :
    build_topo t (fuel + 1) (Ref.tape i) s =
      if (t.getD i default).op = Op.leaf then s
      else if i ∈ s.1 then s
      else
        (let s1 := ((i :: s.1, s.2) : List ℕ × List ℕ)
         let s2 := match (t.getD i default).prev0 with
           | none => s1
           | some r => build_topo t fuel r s1
         let s3 := match (t.getD i default).prev1 with
           | none => s2
           | some r => build_topo t fuel r s2
         (s3.1, s3.2 ++ [i])) := rfl

/-- Assembling the result of a non-trivial `build_topo` call: `i` was newly
marked, the recursive calls produced `s3`, and `i` is appended. -/
theorem build_topo_assemble {st : State} (hwf : WF st) {i : ℕ}
    {s s3 : List ℕ × List ℕ}
    (hvis : i ∉ s.1) (hint : interiorAt st i)
    (hinv : TopoInv st s.1 s.2)
    (hcall : TopoCall st i (i :: s.1, s.2) s3)
    (hclose : ∀ j, consumes st i j → interiorAt st j → j ∈ s3.1) :
    TopoCall st (i + 1) s (s3.1, s3.2 ++ [i]) ∧ i ∈ s3.1 := by
  obtain ⟨inv3, ⟨d3, hd3⟩, m3, e3, b3⟩ := hcall
  have hitopo : i ∉ s.2 := fun hc => hvis (hinv.2.1 i hc)
  have hii : i ∈ s3.1 ∧ i ∉ s3.2 :=
    (e3 i).mpr ⟨List.mem_cons_self i s.1, hitopo⟩
  refine ⟨⟨?_, ?_, ?_, ?_, ?_⟩, hii.1⟩
  · -- the new invariant
    refine ⟨?_, ?_, ?_, ?_⟩
    · -- nodup
      refine List.Nodup.append inv3.1 (List.nodup_singleton i) ?_
      intro x hx hx2
      rw [List.mem_singleton] at hx2
      exact hii.2 (hx2 ▸ hx)
    · intro x hx
      rcases List.mem_append.mp hx with hx | hx
      · exact inv3.2.1 x hx
      · rw [List.mem_singleton] at hx
        exact hx ▸ hii.1
    · -- pairwise: nothing listed before `i` consumes `i`
      refine List.pairwise_append.mpr ⟨inv3.2.2.1, List.pairwise_singleton _ i, ?_⟩
      intro a ha b hb
      rw [List.mem_singleton] at hb
      intro hcon
      rw [hb] at hcon
      by_cases hatopo : a ∈ s.2
      · exact hvis (hinv.2.2.2 a hatopo i hcon hint)
      · have ha1 : a ∈ s3.1 := inv3.2.1 a ha
        rcases b3 a ha1 with hav | hlt
        · rcases List.mem_cons.mp hav with rfl | hav
          · exact hii.2 ha
          · exact ((e3 a).mpr ⟨List.mem_cons_of_mem i hav, hatopo⟩).2 ha
        · exact absurd (consumes_lt hwf hcon) (by omega)
    · -- closure
      intro c hc j hcon hj
      rcases List.mem_append.mp hc with hc | hc
      · exact inv3.2.2.2 c hc j hcon hj
      · rw [List.mem_singleton] at hc
        subst hc
        exact hclose j hcon hj
  · exact ⟨d3 ++ [i], by rw [hd3, List.append_assoc]⟩
  · exact fun x hx => m3 x (List.mem_cons_of_mem i hx)
  · intro x
    constructor
    · rintro ⟨hx1, hx2⟩
      have hxne : x ≠ i := fun hc => hx2 (List.mem_append.mpr (Or.inr (by simp [hc])))
      have hx3 : x ∉ s3.2 := fun hc => hx2 (List.mem_append.mpr (Or.inl hc))
      have := (e3 x).mp ⟨hx1, hx3⟩
      exact ⟨(List.mem_cons.mp this.1).resolve_left hxne, this.2⟩
    · rintro ⟨hx1, hx2⟩
      have hxne : x ≠ i := fun hc => hvis (hc ▸ hx1)
      have := (e3 x).mpr ⟨List.mem_cons_of_mem i hx1, hx2⟩
      refine ⟨this.1, fun hc => ?_⟩
      rcases List.mem_append.mp hc with hc | hc
      · exact this.2 hc
      · rw [List.mem_singleton] at hc
        exact hxne hc
  · intro x hx
    rcases b3 x hx with hav | hlt
    · rcases List.mem_cons.mp hav with rfl | hav
      · exact Or.inr (by omega)
      · exact Or.inl hav
    · exact Or.inr (by omega)

theorem build_topo_spec {st : State} (hwf : WF st) :
    ∀ (fuel : ℕ) (v : Ref) (s : List ℕ × List ℕ),
      (∀ i, v = Ref.tape i → i < fuel) →
      TopoInv st s.1 s.2 →
      (∀ i, v = Ref.tape i →
        TopoCall st (i + 1) s (build_topo st.tape fuel v s) ∧
          (interiorAt st i → i ∈ (build_topo st.tape fuel v s).1)) ∧
      (∀ p, v = Ref.param p → build_topo st.tape fuel v s = s) := by
  intro fuel
  induction fuel with
  | zero =>
    intro v s hfuel hinv
    constructor
    · intro i hv
      exact absurd (hfuel i hv) (Nat.not_lt_zero i)
    · intro p hv
      subst hv
      rfl
  | succ fuel ih =>
    intro v s hfuel hinv
    constructor
    · intro i hv
      subst hv
      have hfuel2 : i ≤ fuel := Nat.lt_succ_iff.mp (hfuel i rfl)
      rw [build_topo_tape]
      by_cases hop : (st.tape.getD i default).op = Op.leaf
      · rw [if_pos hop]
        exact ⟨TopoCall_refl hinv, fun hint => absurd hop hint⟩
      rw [if_neg hop]
      by_cases hvis : i ∈ s.1
      · rw [if_pos hvis]
        exact ⟨TopoCall_refl hinv, fun _ => hvis⟩
      rw [if_neg hvis]
      have hint : interiorAt st i := hop
      have hinv1 : TopoInv st (i :: s.1) s.2 :=
        ⟨hinv.1, fun x hx => List.mem_cons_of_mem i (hinv.2.1 x hx), hinv.2.2.1,
          fun c hc j hcon hj => List.mem_cons_of_mem i (hinv.2.2.2 c hc j hcon hj)⟩
      have callFact : ∀ (ro : Option Ref) (s1 : List ℕ × List ℕ),
          TopoInv st s1.1 s1.2 →
          (∀ j, ro = some (Ref.tape j) → j < i) →
          TopoCall st i s1 (ro.elim s1 (fun rr => build_topo st.tape fuel rr s1)) ∧
          (∀ j, ro = some (Ref.tape j) → interiorAt st j →
            j ∈ (ro.elim s1 (fun rr => build_topo st.tape fuel rr s1)).1) := by
        intro ro s1 hinv1a hbound
        cases ro with
        | none => exact ⟨TopoCall_refl hinv1a, fun j hj => nomatch hj⟩
        | some rr =>
          cases rr with
          | param p =>
            have hid : build_topo st.tape fuel (Ref.param p) s1 = s1 :=
              (ih (Ref.param p) s1 (fun j hj => nomatch hj) hinv1a).2 p rfl
            have hc : TopoCall st i s1 (build_topo st.tape fuel (Ref.param p) s1) := by
              rw [hid]
              exact TopoCall_refl hinv1a
            exact ⟨hc, fun j hj => nomatch hj⟩
          | tape j =>
            have hji : j < i := hbound j rfl
            have hcall := (ih (Ref.tape j) s1
              (fun j2 hj2 => by
                injection hj2 with hj3
                rw [← hj3]
                exact lt_of_lt_of_le hji hfuel2)
              hinv1a).1 j rfl
            refine ⟨TopoCall_mono hji hcall.1, fun j2 hj2 hintj => ?_⟩
            injection hj2 with hj3
            injection hj3 with hj4
            rw [← hj4] at hintj ⊢
            exact hcall.2 hintj
      have hb0 : ∀ j, (st.tape.getD i default).prev0 = some (Ref.tape j) → j < i :=
        fun j hj => consumes_lt hwf (Or.inl hj)
      have hb1 : ∀ j, (st.tape.getD i default).prev1 = some (Ref.tape j) → j < i :=
        fun j hj => consumes_lt hwf (Or.inr hj)
      -- run the two recursive calls generically over the optional operands
      have hc0 := callFact ((st.tape.getD i default).prev0) (i :: s.1, s.2) hinv1 hb0
      have hc1 := callFact ((st.tape.getD i default).prev1)
        (((st.tape.getD i default).prev0).elim
          ((i :: s.1, s.2) : List ℕ × List ℕ)
          (fun rr => build_topo st.tape fuel rr (i :: s.1, s.2)))
        hc0.1.1 hb1
      have hres := build_topo_assemble hwf hvis hint hinv
        (TopoCall_trans hc0.1 hc1.1)
        (fun j hcon hj => by
          rcases hcon with hcon | hcon
          · exact hc1.1.2.2.1 j (hc0.2 j hcon hj)
          · exact hc1.2 j hcon hj)
      -- the goal is the same state expression with the matches written out
      cases hp0 : (st.tape.getD i default).prev0 with
      | none =>
        cases hp1 : (st.tape.getD i default).prev1 with
        | none =>
          rw [hp0, hp1] at hres
          exact ⟨hres.1, fun _ => hres.2⟩
        | some r1 =>
          rw [hp0, hp1] at hres
          exact ⟨hres.1, fun _ => hres.2⟩
      | some r0 =>
        cases hp1 : (st.tape.getD i default).prev1 with
        | none =>
          rw [hp0, hp1] at hres
          exact ⟨hres.1, fun _ => hres.2⟩
        | some r1 =>
          rw [hp0, hp1] at hres
          exact ⟨hres.1, fun _ => hres.2⟩
    · intro p hv
      subst hv
      rfl

/-! ### The two backward strategies compute the same state -/

theorem gradOf_mapRef_ne {st : State} {r ρ : Ref} {f : Node → Node} (h : ρ ≠ r) :
    gradOf (mapRef st r f) ρ = gradOf st ρ := by
  simp [gradOf, getNode_mapRef_ne h]

theorem gradOf_runList_ne {ops : ScalarOps} {st0 : State} {ρ : Ref}
    (h : ∀ k, (getNode st0 (Ref.tape k)).prev0 ≠ some ρ ∧
        (writesPrev1 (getNode st0 (Ref.tape k)).op →
          (getNode st0 (Ref.tape k)).prev1 ≠ some ρ)) :
    ∀ (L : List ℕ) (st : State), structEq st0 st →
      gradOf (runList ops st L) ρ = gradOf st ρ := by
  intro L
  induction L with
  | nil => intro st hse; rfl
  | cons k L2 ih =>
    intro st hse
    rw [runList_cons, ih (runRule ops st (Ref.tape k))
      (structEq_trans hse structEq_runRule)]
    refine gradOf_runRule_ne ?_ ?_
    · rw [← hse.prev0Of (Ref.tape k)]
      exact (h k).1
    · intro hw
      rw [← hse.prev1Of (Ref.tape k)]
      refine (h k).2 ?_
      unfold writesPrev1 at hw ⊢
      rw [hse.opOf (Ref.tape k)]
      exact hw

/-- The heart of claim C1: on a well-formed state with all gradients zero,
the linear reverse-index sweep and the DFS reverse-post-order sweep produce
exactly the same state. -/
theorem backward_eq_backward_dfs {ops : ScalarOps} {st : State} (hwf : WF st)
    (hz : ∀ i, gradOf st (Ref.tape i) = 0) (root : Ref) (retain : Bool) :
    backward ops st root retain = backward_dfs ops st root retain := by
  cases root with
  | param p =>
    unfold backward backward_dfs backward_pass
    cases retain <;> rfl
  | tape r =>
    have hspec := (build_topo_spec hwf (r + 1) (Ref.tape r) ([], [])
      (fun i hi => by injection hi with h2; rw [← h2]; exact Nat.lt_succ_self r)
      ⟨List.nodup_nil, by simp, List.Pairwise.nil, by simp⟩).1 r rfl
    obtain ⟨⟨⟨hTnd, hTsub, hTpw, hTclose⟩, _, _, hST, hbnd⟩, hvisit⟩ := hspec
    have hVT : ∀ x, x ∈ (build_topo st.tape (r + 1) (Ref.tape r) ([], [])).1 →
        x ∈ (build_topo st.tape (r + 1) (Ref.tape r) ([], [])).2 := by
      intro x hx
      by_contra hc
      have := (hST x).mp ⟨hx, hc⟩
      simp at this
    have hTbound : ∀ x ∈ (build_topo st.tape (r + 1) (Ref.tape r) ([], [])).2,
        x ≤ r := by
      intro x hx
      rcases hbnd x (hTsub x hx) with h | h
      · simp at h
      · exact Nat.lt_succ_iff.mp h
    have hTclose2 : ∀ c ∈ (build_topo st.tape (r + 1) (Ref.tape r) ([], [])).2,
        ∀ j, consumes st c j → interiorAt st j →
          j ∈ (build_topo st.tape (r + 1) (Ref.tape r) ([], [])).2 :=
      fun c hc j hcon hj => hVT j (hTclose c hc j hcon hj)
    have hse : structEq st (mapRef st (Ref.tape r) (fun nd => { nd with grad := 1 })) :=
      structEq_mapRef_grad
    have hwf1 : WF (mapRef st (Ref.tape r) (fun nd => { nd with grad := 1 })) :=
      WF_structEq hse hwf
    have hzF : ∀ j, interiorAt st j →
        j ∉ (build_topo st.tape (r + 1) (Ref.tape r) ([], [])).2 →
        gradOf (mapRef st (Ref.tape r) (fun nd => { nd with grad := 1 }))
          (Ref.tape j) = 0 := by
      intro j hj hjT
      by_cases hjr : j = r
      · exact absurd (hVT r (hvisit (hjr ▸ hj))) (hjr ▸ hjT)
      · rw [gradOf_mapRef_ne (fun hc => hjr (by injection hc))]
        exact hz j
    have stepA := @runList_eq_filter ops _ _ hTclose2
      ((List.range (rootBound (Ref.tape r))).reverse)
      (mapRef st (Ref.tape r) (fun nd => { nd with grad := 1 })) hse hzF
    have hLnd : ((List.range (rootBound (Ref.tape r))).reverse).Nodup :=
      List.nodup_reverse.mpr (List.nodup_range _)
    have hLgt : ((List.range (rootBound (Ref.tape r))).reverse).Pairwise (· > ·) :=
      List.pairwise_reverse.mpr (List.pairwise_lt_range _)
    have stepB := @runList_perm ops
      (((List.range (rootBound (Ref.tape r))).reverse).filter
        (fun x => decide (x ∈ (build_topo st.tape (r + 1) (Ref.tape r) ([], [])).2)))
      ((build_topo st.tape (r + 1) (Ref.tape r) ([], [])).2.reverse)
      (mapRef st (Ref.tape r) (fun nd => { nd with grad := 1 }))
      ((noSelfLoop_structEq hse).mp (WF_noSelfLoop hwf))
      (List.Nodup.filter _ hLnd)
      (List.nodup_reverse.mpr hTnd)
      (fun x => by
        rw [List.mem_filter, List.mem_reverse, List.mem_reverse, List.mem_range]
        constructor
        · rintro ⟨_, hx⟩
          exact of_decide_eq_true hx
        · intro hx
          exact ⟨Nat.lt_succ_of_le (hTbound x hx), decide_eq_true hx⟩)
      ((validOrder_structEq hse).mp (by
        refine List.Pairwise.imp ?_ (List.Pairwise.filter _ hLgt)
        intro a b hab hcon
        exact absurd (consumes_lt hwf hcon) (by omega)))
      ((validOrder_structEq hse).mp (by
        unfold validOrder
        rw [List.pairwise_reverse]
        exact hTpw))
    unfold backward backward_dfs backward_pass
    rw [stepA, stepB]
    rfl

/-! ### Client programs maintain the tape discipline -/

theorem tape_length_push {st : State} {nd : Node} :
    (pushNode st nd).tape.length = st.tape.length + 1 := by
  simp [pushNode]

theorem params_push {st : State} {nd : Node} :
    (pushNode st nd).params = st.params := rfl

theorem getNode_push_lt {st : State} {nd : Node} {i : ℕ} (h : i < st.tape.length) :
    getNode (pushNode st nd) (Ref.tape i) = getNode st (Ref.tape i) :=
  getD_append_lt h _

theorem getNode_push_len {st : State} {nd : Node} :
    getNode (pushNode st nd) (Ref.tape st.tape.length) = nd :=
  getD_append_len

theorem getNode_push_gt {st : State} {nd : Node} {i : ℕ} (h : st.tape.length < i) :
    getNode (pushNode st nd) (Ref.tape i) = default := by
  refine getD_oob ?_ _
  rw [show (pushNode st nd).tape = st.tape ++ [nd] from rfl]
  simp
  omega

theorem getNode_push_param {st : State} {nd : Node} {p : ℕ} :
    getNode (pushNode st nd) (Ref.param p) = getNode st (Ref.param p) := rfl

theorem validRef_push {st : State} {nd : Node} {r : Ref} (h : validRef st r) :
    validRef (pushNode st nd) r := by
  cases r with
  | tape i =>
    have : i < st.tape.length := h
    simp only [validRef, tape_length_push]
    omega
  | param i => exact h

theorem childOK_push {st : State} {nd : Node} {c : ℕ} {pr : Option Ref} :
    childOK (pushNode st nd) c pr = childOK st c pr := by
  cases pr with
  | none => rfl
  | some r => cases r <;> rfl

theorem gradOf_param_push {st : State} {nd : Node} {p : ℕ} :
    gradOf (pushNode st nd) (Ref.param p) = gradOf st (Ref.param p) := rfl

/-- Exponent nodes of a well-formed state are strictly below the tape head. -/
theorem isExpAt_lt {st : State} (hwf : WF st) {j : ℕ} (h : isExpAt st j) :
    j < st.tape.length := by
  obtain ⟨p, hp, _, hprev⟩ := h
  exact lt_trans (consumes_lt hwf (Or.inr hprev)) hp

theorem Inv_env_subset {st : State} {env1 env2 : List Ref}
    (hsub : ∀ r ∈ env2, r ∈ env1) (h : Inv st env1) : Inv st env2 := by
  obtain ⟨hwf, henv, hgz, hgp, hexp⟩ := h
  refine ⟨hwf, fun r hr => henv r (hsub r hr), hgz, hgp, fun j hj => ?_⟩
  obtain ⟨hne, hcond⟩ := hexp j hj
  exact ⟨fun hc => hne (hsub _ hc), hcond⟩

theorem Inv_empty : Inv emptyState [] := by
  refine ⟨?_, ?_, ?_, ?_, ?_⟩
  · intro c hc; simp [emptyState] at hc
  · intro r hr; simp at hr
  · intro i; rfl
  · intro p; rfl
  · intro j hj
    obtain ⟨p, hp, _, _⟩ := hj
    simp [emptyState] at hp

theorem Inv_push1 {st : State} {env : List Ref} {nd : Node}
    (hInv : Inv st env) (hop : nd.op ≠ Op.pow) (hgrad : nd.grad = 0)
    (h0 : nd.prev0 = none ∨ ∃ r ∈ env, nd.prev0 = some r)
    (h1 : nd.prev1 = none ∨ ∃ r ∈ env, nd.prev1 = some r) :
    Inv (pushNode st nd) (env ++ [Ref.tape st.tape.length]) := by
  obtain ⟨hwf, henv, hgz, hgp, hexp⟩ := hInv
  have hchild : ∀ (pr : Option Ref),
      (pr = none ∨ ∃ r ∈ env, pr = some r) →
      childOK (pushNode st nd) st.tape.length pr = true := by
    intro pr hpr
    rcases hpr with rfl | ⟨r, hr, rfl⟩
    · rfl
    · have hv := henv r hr
      cases r with
      | tape j => simpa [childOK, childOK_push] using hv
      | param j => simpa [childOK, childOK_push, pushNode] using hv
  refine ⟨?_, ?_, ?_, ?_, ?_⟩
  · intro c hc
    rw [tape_length_push] at hc
    rcases Nat.lt_succ_iff_lt_or_eq.mp hc with hc | hc
    · rw [getNode_push_lt hc, childOK_push, childOK_push]
      exact hwf c hc
    · subst hc
      rw [getNode_push_len]
      exact ⟨hchild nd.prev0 h0, hchild nd.prev1 h1⟩
  · intro r hr
    rcases List.mem_append.mp hr with hr | hr
    · exact validRef_push (henv r hr)
    · rw [List.mem_singleton] at hr
      subst hr
      simp [validRef, tape_length_push]
  · intro i
    rcases lt_trichotomy i st.tape.length with h | h | h
    · rw [gradOf, getNode_push_lt h]
      exact hgz i
    · subst h
      rw [gradOf, getNode_push_len]
      exact hgrad
    · rw [gradOf, getNode_push_gt h]
      rfl
  · intro p
    rw [gradOf_param_push]
    exact hgp p
  · intro j hj
    have hjold : isExpAt st j := by
      obtain ⟨p, hp, hpop, hpprev⟩ := hj
      rw [tape_length_push] at hp
      rcases Nat.lt_succ_iff_lt_or_eq.mp hp with hp | hp
      · rw [getNode_push_lt hp] at hpop hpprev
        exact ⟨p, hp, hpop, hpprev⟩
      · subst hp
        rw [getNode_push_len] at hpop
        exact absurd hpop hop
    obtain ⟨hnotenv, hcond⟩ := hexp j hjold
    have hjlt : j < st.tape.length := isExpAt_lt hwf hjold
    refine ⟨?_, ?_⟩
    · intro hc
      rcases List.mem_append.mp hc with hc | hc
      · exact hnotenv hc
      · rw [List.mem_singleton] at hc
        injection hc with hc
        omega
    · intro c
      rcases lt_trichotomy c st.tape.length with h | h | h
      · rw [getNode_push_lt h]
        exact hcond c
      · subst h
        rw [getNode_push_len]
        constructor
        · intro hc
          rcases h0 with h2 | ⟨r, hr, h2⟩ <;> rw [h2] at hc
          · exact Option.noConfusion hc
          · injection hc with hc
            exact hnotenv (hc ▸ hr)
        · intro hc
          rcases h1 with h2 | ⟨r, hr, h2⟩ <;> rw [h2] at hc
          · exact Option.noConfusion hc
          · injection hc with hc
            exact absurd (hc ▸ hr) hnotenv
      · rw [getNode_push_gt h]
        exact ⟨fun hc => Option.noConfusion hc, fun hc => Option.noConfusion hc⟩

theorem Inv_push_pow {st : State} {env : List Ref} {n d : ℚ} {a : Ref}
    (hInv : Inv st env) (ha : a ∈ env) :
    Inv (pushNode (pushNode st ⟨n, 0, Op.leaf, none, none⟩)
          ⟨d, 0, Op.pow, some a, some (Ref.tape st.tape.length)⟩)
        (env ++ [Ref.tape (st.tape.length + 1)]) := by
  obtain ⟨hwf, henv, hgz, hgp, hexp⟩ := hInv
  have hL1 : (pushNode st ⟨n, 0, Op.leaf, none, none⟩).tape.length
      = st.tape.length + 1 := tape_length_push
  have hget : ∀ i, i < st.tape.length →
      getNode (pushNode (pushNode st ⟨n, 0, Op.leaf, none, none⟩)
        ⟨d, 0, Op.pow, some a, some (Ref.tape st.tape.length)⟩) (Ref.tape i)
        = getNode st (Ref.tape i) := by
    intro i hi
    rw [getNode_push_lt (by omega : i < (pushNode st ⟨n, 0, Op.leaf, none, none⟩).tape.length),
      getNode_push_lt hi]
  have hgetE : getNode (pushNode (pushNode st ⟨n, 0, Op.leaf, none, none⟩)
      ⟨d, 0, Op.pow, some a, some (Ref.tape st.tape.length)⟩)
      (Ref.tape st.tape.length) = ⟨n, 0, Op.leaf, none, none⟩ := by
    rw [getNode_push_lt (by omega : st.tape.length
      < (pushNode st ⟨n, 0, Op.leaf, none, none⟩).tape.length), getNode_push_len]
  have hgetP : getNode (pushNode (pushNode st ⟨n, 0, Op.leaf, none, none⟩)
      ⟨d, 0, Op.pow, some a, some (Ref.tape st.tape.length)⟩)
      (Ref.tape (st.tape.length + 1))
      = ⟨d, 0, Op.pow, some a, some (Ref.tape st.tape.length)⟩ := by
    rw [show st.tape.length + 1
      = (pushNode st ⟨n, 0, Op.leaf, none, none⟩).tape.length from hL1.symm,
      getNode_push_len]
  have hgetG : ∀ i, st.tape.length + 1 < i →
      getNode (pushNode (pushNode st ⟨n, 0, Op.leaf, none, none⟩)
        ⟨d, 0, Op.pow, some a, some (Ref.tape st.tape.length)⟩) (Ref.tape i)
        = default := by
    intro i hi
    exact getNode_push_gt (by omega)
  have henvne : ∀ r ∈ env, r ≠ Ref.tape st.tape.length ∧ r ≠ Ref.tape (st.tape.length + 1) := by
    intro r hr
    have hv := henv r hr
    cases r with
    | tape j =>
      have : j < st.tape.length := hv
      exact ⟨fun hc => by injection hc with hc; omega,
        fun hc => by injection hc with hc; omega⟩
    | param j => exact ⟨fun hc => Ref.noConfusion hc, fun hc => Ref.noConfusion hc⟩
  have hchildP : ∀ (pr : Option Ref) (c : ℕ), c < st.tape.length →
      childOK st c pr = true →
      childOK (pushNode (pushNode st ⟨n, 0, Op.leaf, none, none⟩)
        ⟨d, 0, Op.pow, some a, some (Ref.tape st.tape.length)⟩) c pr = true := by
    intro pr c _ h
    rw [childOK_push, childOK_push]
    exact h
  refine ⟨?_, ?_, ?_, ?_, ?_⟩
  · intro c hc
    rw [tape_length_push, hL1] at hc
    rcases (by omega : c < st.tape.length ∨ c = st.tape.length ∨ c = st.tape.length + 1)
      with hcase | hcase | hcase
    · rw [hget c hcase]
      obtain ⟨hx, hy⟩ := hwf c hcase
      exact ⟨hchildP _ c hcase hx, hchildP _ c hcase hy⟩
    · subst hcase
      rw [hgetE]
      exact ⟨rfl, rfl⟩
    · subst hcase
      rw [hgetP]
      constructor
      · have hv := henv a ha
        cases a with
        | tape j =>
          have : j < st.tape.length := hv
          simp [childOK]
          omega
        | param j =>
          simpa [childOK, pushNode] using hv
      · simp [childOK]
  · intro r hr
    rcases List.mem_append.mp hr with hr | hr
    · exact validRef_push (validRef_push (henv r hr))
    · rw [List.mem_singleton] at hr
      subst hr
      show st.tape.length + 1 < _
      rw [tape_length_push, hL1]
      omega
  · intro i
    rcases (by omega : i < st.tape.length ∨ i = st.tape.length
        ∨ i = st.tape.length + 1 ∨ st.tape.length + 1 < i) with h | h | h | h
    · rw [gradOf, hget i h]; exact hgz i
    · subst h; rw [gradOf, hgetE]
    · subst h; rw [gradOf, hgetP]
    · rw [gradOf, hgetG i h]; rfl
  · intro p
    exact hgp p
  · intro j hj
    have hcases : isExpAt st j ∨ j = st.tape.length := by
      obtain ⟨p, hp, hpop, hpprev⟩ := hj
      rw [tape_length_push, hL1] at hp
      rcases (by omega : p < st.tape.length ∨ p = st.tape.length
          ∨ p = st.tape.length + 1) with hc | hc | hc
      · rw [hget p hc] at hpop hpprev
        exact Or.inl ⟨p, hc, hpop, hpprev⟩
      · subst hc
        rw [hgetE] at hpop
        exact Op.noConfusion hpop
      · subst hc
        rw [hgetP] at hpprev
        injection hpprev with hpprev
        injection hpprev with hpprev
        exact Or.inr hpprev.symm
    rcases hcases with hold | hnew
    · obtain ⟨hnotenv, hcond⟩ := hexp j hold
      have hjlt : j < st.tape.length := isExpAt_lt hwf hold
      refine ⟨?_, ?_⟩
      · intro hc
        rcases List.mem_append.mp hc with hc | hc
        · exact hnotenv hc
        · rw [List.mem_singleton] at hc
          injection hc with hc
          omega
      · intro c
        rcases (by omega : c < st.tape.length ∨ c = st.tape.length
            ∨ c = st.tape.length + 1 ∨ st.tape.length + 1 < c) with h | h | h | h
        · rw [hget c h]
          exact hcond c
        · subst h
          rw [hgetE]
          exact ⟨fun hc => Option.noConfusion hc, fun hc => Option.noConfusion hc⟩
        · subst h
          rw [hgetP]
          constructor
          · intro hc
            injection hc with hc
            exact hnotenv (hc ▸ ha)
          · intro _
            rfl
        · rw [hgetG c h]
          exact ⟨fun hc => Option.noConfusion hc, fun hc => Option.noConfusion hc⟩
    · subst hnew
      refine ⟨?_, ?_⟩
      · intro hc
        rcases List.mem_append.mp hc with hc | hc
        · exact (henvne _ hc).1 rfl
        · rw [List.mem_singleton] at hc
          injection hc with hc
          omega
      · intro c
        rcases (by omega : c < st.tape.length ∨ c = st.tape.length
            ∨ c = st.tape.length + 1 ∨ st.tape.length + 1 < c) with h | h | h | h
        · have hok := hwf c h
          rw [hget c h]
          constructor
          · intro hc
            have := hok.1
            rw [hc] at this
            have : st.tape.length < c := by simpa [childOK] using this
            omega
          · intro hc
            have := hok.2
            rw [hc] at this
            have : st.tape.length < c := by simpa [childOK] using this
            omega
        · subst h
          rw [hgetE]
          exact ⟨fun hc => Option.noConfusion hc, fun hc => Option.noConfusion hc⟩
        · subst h
          rw [hgetP]
          constructor
          · intro hc
            injection hc with hc
            exact (henvne a ha).1 hc
          · intro _
            rfl
        · rw [hgetG c h]
          exact ⟨fun hc => Option.noConfusion hc, fun hc => Option.noConfusion hc⟩

theorem Inv_param {st : State} {env : List Ref} {d : ℚ} (hInv : Inv st env) :
    Inv (new_param st d).1 (env ++ [(new_param st d).2]) := by
  obtain ⟨hwf, henv, hgz, hgp, hexp⟩ := hInv
  have htape : (new_param st d).1.tape = st.tape := rfl
  have hnode : ∀ r2 : Ref, (∀ p2, r2 ≠ Ref.param p2) →
      getNode (new_param st d).1 r2 = getNode st r2 := by
    intro r2 hr2
    cases r2 with
    | tape i => rfl
    | param p2 => exact absurd rfl (hr2 p2)
  refine ⟨?_, ?_, ?_, ?_, ?_⟩
  · intro c hc
    have hok := hwf c hc
    have hgc : getNode (new_param st d).1 (Ref.tape c) = getNode st (Ref.tape c) := rfl
    rw [hgc]
    have hmono : ∀ pr : Option Ref, childOK st c pr = true →
        childOK (new_param st d).1 c pr = true := by
      intro pr h
      cases pr with
      | none => rfl
      | some r2 =>
        cases r2 with
        | tape j => exact h
        | param p2 =>
          have : p2 < st.params.length := by simpa [childOK] using h
          have hlen : (new_param st d).1.params.length = st.params.length + 1 := by
            simp [new_param]
          simp [childOK, hlen]
          omega
    exact ⟨hmono _ hok.1, hmono _ hok.2⟩
  · intro r hr
    rcases List.mem_append.mp hr with hr | hr
    · have hv := henv r hr
      cases r with
      | tape i => exact hv
      | param p2 =>
        have : p2 < st.params.length := hv
        show p2 < (new_param st d).1.params.length
        simp [new_param]
        omega
    · rw [List.mem_singleton] at hr
      subst hr
      show st.params.length < (new_param st d).1.params.length
      simp [new_param]
  · intro i
    exact hgz i
  · intro p
    show ((new_param st d).1.params.getD p default).grad = 0
    have : (new_param st d).1.params = st.params ++ [⟨d, 0, Op.leaf, none, none⟩] := rfl
    rw [this]
    rcases lt_trichotomy p st.params.length with h | h | h
    · rw [getD_append_lt h]
      exact hgp p
    · subst h
      rw [getD_append_len]
    · rw [getD_oob (by simp; omega)]
      rfl
  · intro j hj
    have hjold : isExpAt st j := hj
    obtain ⟨hnotenv, hcond⟩ := hexp j hjold
    refine ⟨?_, fun c => hcond c⟩
    intro hc
    rcases List.mem_append.mp hc with hc | hc
    · exact hnotenv hc
    · rw [List.mem_singleton] at hc
      exact Ref.noConfusion hc

theorem new_val_shape {st : State} {d : ℚ} {p0 p1 : Option Ref} {pr : State × Ref}
    (h : new_val st d p0 p1 = some pr) :
    pr = (pushNode st ⟨d, 0, Op.leaf, p0, p1⟩, Ref.tape st.tape.length) := by
  unfold new_val at h
  split at h
  · exact absurd h (by simp)
  · exact (Option.some.inj h).symm

theorem setOpAt_push {st : State} {nd : Node} {o : Op} :
    setOpAt (pushNode st nd) (Ref.tape st.tape.length) o
      = pushNode st { nd with op := o } := by
  show ({ pushNode st nd with
      tape := (pushNode st nd).tape.set st.tape.length
        ({ (pushNode st nd).tape.getD st.tape.length default with op := o }) } : State)
    = pushNode st { nd with op := o }
  have h1 : (pushNode st nd).tape.getD st.tape.length default = nd := getD_append_len
  rw [h1]
  have h2 : (pushNode st nd).tape.set st.tape.length { nd with op := o }
      = st.tape ++ [{ nd with op := o }] := set_append_len
  rw [h2]
  rfl

theorem op_step_inv {st : State} {envC envA : List Ref} {d : ℚ} {p0 p1 : Option Ref}
    {o : Op} {st2 : State} {env2 : List Ref}
    (h : Inv st envC) (ho : o ≠ Op.pow)
    (h0 : p0 = none ∨ ∃ r ∈ envC, p0 = some r)
    (h1 : p1 = none ∨ ∃ r ∈ envC, p1 = some r)
    (hsub : ∀ r ∈ envA, r ∈ envC)
    (hstep : ((new_val st d p0 p1).map (fun p => (setOpAt p.1 p.2 o, p.2))).map
        (fun p => (p.1, envA ++ [p.2])) = some (st2, env2)) :
    Inv st2 env2 := by
  cases hnv : new_val st d p0 p1 with
  | none => rw [hnv] at hstep; exact absurd hstep (by simp)
  | some pr =>
    rw [hnv] at hstep
    have hpr := new_val_shape hnv
    subst hpr
    simp only [Option.map_some'] at hstep
    have he := Option.some.inj hstep
    injection he with he1 he2
    rw [← he1, ← he2, setOpAt_push]
    refine @Inv_env_subset _ (envC ++ [Ref.tape st.tape.length]) _ ?_ ?_
    · intro r hr
      rcases List.mem_append.mp hr with hr | hr
      · exact List.mem_append.mpr (Or.inl (hsub r hr))
      · exact List.mem_append.mpr (Or.inr hr)
    · exact Inv_push1 h ho rfl h0 h1

theorem v_pow_shape {ops : ScalarOps} {st : State} {a : Ref} {n : ℚ}
    {pr : State × Ref} (h : v_pow ops st a n = some pr) :
    pr = (pushNode (pushNode st ⟨n, 0, Op.leaf, none, none⟩)
        ⟨ops.powF (dataOf (pushNode st ⟨n, 0, Op.leaf, none, none⟩) a) n, 0, Op.pow,
          some a, some (Ref.tape st.tape.length)⟩,
      Ref.tape (st.tape.length + 1)) := by
  unfold v_pow at h
  cases hnv : new_val st n none none with
  | none => rw [hnv] at h; exact absurd h (by simp)
  | some pe =>
    rw [hnv] at h
    have hpe := new_val_shape hnv
    subst hpe
    rw [Option.some_bind] at h
    cases hnv2 : new_val (pushNode st ⟨n, 0, Op.leaf, none, none⟩)
        (ops.powF (dataOf (pushNode st ⟨n, 0, Op.leaf, none, none⟩) a) n)
        (some a) (some (Ref.tape st.tape.length)) with
    | none => rw [hnv2] at h; exact absurd h (by simp)
    | some pr2 =>
      rw [hnv2] at h
      have hpr2 := new_val_shape hnv2
      subst hpr2
      simp only [Option.map_some'] at h
      have he := Option.some.inj h
      rw [← he, setOpAt_push, tape_length_push]

theorem stepTrace_inv {ops : ScalarOps} {s s2 : State × List Ref} {ins : Instr}
    (h : Inv s.1 s.2) (hstep : stepTrace ops s ins = some s2) : Inv s2.1 s2.2 := by
  obtain ⟨st2, env2⟩ := s2
  have hnp : ∀ o : Op, o ≠ Op.pow → (∀ o2 : Op, o2 = o → o2 ≠ Op.pow) :=
    fun o ho o2 he => he ▸ ho
  cases ins with
  | leaf d =>
    simp only [stepTrace] at hstep
    cases hnv : new_val s.1 d none none with
    | none => rw [hnv] at hstep; exact absurd hstep (by simp)
    | some pr =>
      rw [hnv] at hstep
      have hpr := new_val_shape hnv
      subst hpr
      simp only [Option.map_some'] at hstep
      have he := Option.some.inj hstep
      injection he with he1 he2
      rw [← he1, ← he2]
      exact Inv_push1 h (fun hc => Op.noConfusion hc) rfl (Or.inl rfl) (Or.inl rfl)
  | par d =>
    simp only [stepTrace] at hstep
    have he := Option.some.inj hstep
    injection he with he1 he2
    rw [← he1, ← he2]
    exact Inv_param h
  | add a b =>
    simp only [stepTrace] at hstep
    cases hga : s.2.get? a with
    | none =>
      rw [hga] at hstep
      exact Option.noConfusion (show (none : Option (State × List Ref))
        = some (st2, env2) from hstep)
    | some ra =>
      cases hgb : s.2.get? b with
      | none =>
        rw [hga, hgb] at hstep
        exact Option.noConfusion (show (none : Option (State × List Ref))
          = some (st2, env2) from hstep)
      | some rb =>
        rw [hga, hgb] at hstep
        replace hstep : (add s.1 ra rb).map (fun p => (p.1, s.2 ++ [p.2]))
            = some (st2, env2) := hstep
        unfold add at hstep
        exact op_step_inv h (fun hc => Op.noConfusion hc)
          (Or.inr ⟨ra, List.get?_mem hga, rfl⟩) (Or.inr ⟨rb, List.get?_mem hgb, rfl⟩)
          (fun r hr => hr) hstep
  | sub a b =>
    simp only [stepTrace] at hstep
    cases hga : s.2.get? a with
    | none =>
      rw [hga] at hstep
      exact Option.noConfusion (show (none : Option (State × List Ref))
        = some (st2, env2) from hstep)
    | some ra =>
      cases hgb : s.2.get? b with
      | none =>
        rw [hga, hgb] at hstep
        exact Option.noConfusion (show (none : Option (State × List Ref))
          = some (st2, env2) from hstep)
      | some rb =>
        rw [hga, hgb] at hstep
        replace hstep : (sub s.1 ra rb).map (fun p => (p.1, s.2 ++ [p.2]))
            = some (st2, env2) := hstep
        unfold sub at hstep
        exact op_step_inv h (fun hc => Op.noConfusion hc)
          (Or.inr ⟨ra, List.get?_mem hga, rfl⟩) (Or.inr ⟨rb, List.get?_mem hgb, rfl⟩)
          (fun r hr => hr) hstep
  | mul a b =>
    simp only [stepTrace] at hstep
    cases hga : s.2.get? a with
    | none =>
      rw [hga] at hstep
      exact Option.noConfusion (show (none : Option (State × List Ref))
        = some (st2, env2) from hstep)
    | some ra =>
      cases hgb : s.2.get? b with
      | none =>
        rw [hga, hgb] at hstep
        exact Option.noConfusion (show (none : Option (State × List Ref))
          = some (st2, env2) from hstep)
      | some rb =>
        rw [hga, hgb] at hstep
        replace hstep : (mul s.1 ra rb).map (fun p => (p.1, s.2 ++ [p.2]))
            = some (st2, env2) := hstep
        unfold mul at hstep
        exact op_step_inv h (fun hc => Op.noConfusion hc)
          (Or.inr ⟨ra, List.get?_mem hga, rfl⟩) (Or.inr ⟨rb, List.get?_mem hgb, rfl⟩)
          (fun r hr => hr) hstep
  | tdiv a b =>
    simp only [stepTrace] at hstep
    cases hga : s.2.get? a with
    | none =>
      rw [hga] at hstep
      exact Option.noConfusion (show (none : Option (State × List Ref))
        = some (st2, env2) from hstep)
    | some ra =>
      cases hgb : s.2.get? b with
      | none =>
        rw [hga, hgb] at hstep
        exact Option.noConfusion (show (none : Option (State × List Ref))
          = some (st2, env2) from hstep)
      | some rb =>
        rw [hga, hgb] at hstep
        replace hstep : (true_div s.1 ra rb).map (fun p => (p.1, s.2 ++ [p.2]))
            = some (st2, env2) := hstep
        unfold true_div at hstep
        exact op_step_inv h (fun hc => Op.noConfusion hc)
          (Or.inr ⟨ra, List.get?_mem hga, rfl⟩) (Or.inr ⟨rb, List.get?_mem hgb, rfl⟩)
          (fun r hr => hr) hstep
  | vpow a n =>
    simp only [stepTrace] at hstep
    cases hga : s.2.get? a with
    | none =>
      rw [hga] at hstep
      exact Option.noConfusion (show (none : Option (State × List Ref))
        = some (st2, env2) from hstep)
    | some ra =>
      rw [hga] at hstep
      replace hstep : (v_pow ops s.1 ra n).map (fun p => (p.1, s.2 ++ [p.2]))
          = some (st2, env2) := hstep
      cases hvp : v_pow ops s.1 ra n with
      | none => rw [hvp] at hstep; exact absurd hstep (by simp)
      | some prP =>
        rw [hvp] at hstep
        have hshape := v_pow_shape hvp
        subst hshape
        simp only [Option.map_some'] at hstep
        have he := Option.some.inj hstep
        injection he with he1 he2
        rw [← he1, ← he2]
        exact Inv_push_pow h (List.get?_mem hga)
  | vdiv a b =>
    simp only [stepTrace] at hstep
    cases hga : s.2.get? a with
    | none =>
      rw [hga] at hstep
      exact Option.noConfusion (show (none : Option (State × List Ref))
        = some (st2, env2) from hstep)
    | some ra =>
      cases hgb : s.2.get? b with
      | none =>
        rw [hga, hgb] at hstep
        exact Option.noConfusion (show (none : Option (State × List Ref))
          = some (st2, env2) from hstep)
      | some rb =>
        rw [hga, hgb] at hstep
        replace hstep : (v_div ops s.1 ra rb).map (fun p => (p.1, s.2 ++ [p.2]))
            = some (st2, env2) := hstep
        unfold v_div at hstep
        cases hvp : v_pow ops s.1 rb (-1) with
        | none => rw [hvp] at hstep; exact absurd hstep (by simp)
        | some prP =>
          rw [hvp, Option.some_bind] at hstep
          have hshape := v_pow_shape hvp
          subst hshape
          have hInvP := Inv_push_pow (n := -1)
            (d := ops.powF (dataOf (pushNode s.1 ⟨-1, 0, Op.leaf, none, none⟩) rb) (-1))
            h (List.get?_mem hgb)
          unfold mul at hstep
          exact op_step_inv hInvP (fun hc => Op.noConfusion hc)
            (Or.inr ⟨ra, List.mem_append.mpr (Or.inl (List.get?_mem hga)), rfl⟩)
            (Or.inr ⟨Ref.tape (s.1.tape.length + 1),
              List.mem_append.mpr (Or.inr (List.mem_singleton.mpr rfl)), rfl⟩)
            (fun r hr => List.mem_append.mpr (Or.inl hr)) hstep
  | vexp a =>
    simp only [stepTrace] at hstep
    cases hga : s.2.get? a with
    | none =>
      rw [hga] at hstep
      exact Option.noConfusion (show (none : Option (State × List Ref))
        = some (st2, env2) from hstep)
    | some ra =>
      rw [hga] at hstep
      replace hstep : (v_exp ops s.1 ra).map (fun p => (p.1, s.2 ++ [p.2]))
          = some (st2, env2) := hstep
      unfold v_exp at hstep
      exact op_step_inv h (fun hc => Op.noConfusion hc)
        (Or.inr ⟨ra, List.get?_mem hga, rfl⟩) (Or.inl rfl)
        (fun r hr => hr) hstep
  | vtanh a =>
    simp only [stepTrace] at hstep
    cases hga : s.2.get? a with
    | none =>
      rw [hga] at hstep
      exact Option.noConfusion (show (none : Option (State × List Ref))
        = some (st2, env2) from hstep)
    | some ra =>
      rw [hga] at hstep
      replace hstep : (v_tanh ops s.1 ra).map (fun p => (p.1, s.2 ++ [p.2]))
          = some (st2, env2) := hstep
      unfold v_tanh at hstep
      exact op_step_inv h (fun hc => Op.noConfusion hc)
        (Or.inr ⟨ra, List.get?_mem hga, rfl⟩) (Or.inl rfl)
        (fun r hr => hr) hstep
  | vrelu a =>
    simp only [stepTrace] at hstep
    cases hga : s.2.get? a with
    | none =>
      rw [hga] at hstep
      exact Option.noConfusion (show (none : Option (State × List Ref))
        = some (st2, env2) from hstep)
    | some ra =>
      rw [hga] at hstep
      replace hstep : (relu s.1 ra).map (fun p => (p.1, s.2 ++ [p.2]))
          = some (st2, env2) := hstep
      unfold relu at hstep
      exact op_step_inv h (fun hc => Op.noConfusion hc)
        (Or.inr ⟨ra, List.get?_mem hga, rfl⟩) (Or.inl rfl)
        (fun r hr => hr) hstep

theorem runTraceFrom_inv {ops : ScalarOps} :
    ∀ (prog : List Instr) (s s2 : State × List Ref), Inv s.1 s.2 →
      runTraceFrom ops prog s = some s2 → Inv s2.1 s2.2 := by
  intro prog
  induction prog with
  | nil =>
    intro s s2 h hrun
    have := Option.some.inj hrun
    rw [← this]
    exact h
  | cons ins rest ih =>
    intro s s2 h hrun
    simp only [runTraceFrom] at hrun
    cases hstep : stepTrace ops s ins with
    | none => rw [hstep] at hrun; exact absurd hrun (by simp)
    | some s1 =>
      rw [hstep, Option.some_bind] at hrun
      exact ih s1 s2 (stepTrace_inv h hstep) hrun

/-- Everything `runTrace` produces satisfies the tape invariant. -/
theorem runTrace_inv {ops : ScalarOps} {prog : List Instr} {s2 : State × List Ref}
    (h : runTrace ops prog = some s2) : Inv s2.1 s2.2 :=
  runTraceFrom_inv prog (emptyState, []) s2 Inv_empty h

theorem gradOf_free_vals {st : State} {j : ℕ} :
    gradOf (free_vals st) (Ref.tape j) = 0 := rfl

theorem structEq_backward_pass (ops : ScalarOps) (st : State) (root : Ref) :
    structEq st (backward_pass ops st root) :=
  structEq_trans structEq_mapRef_grad structEq_runList

/-! ### The claims -/

/-- C1: for every computation graph built through the operation API
(`runTrace` executes any straight-line client program against the
constructors), starting from the all-zero-gradient state such programs
leave behind, the gradient the linear-sweep `backward` assigns to every
node and parameter handle equals the gradient the DFS-sweep `backward_dfs`
assigns — exactly, for every interpretation of the `pow`/`exp` library
functions, every root handle and either `retain_graph` flag. -/
theorem c1_strategy_equivalence (ops : ScalarOps) (prog : List Instr)
    (st : State) (env : List Ref) (root : Ref) (retain : Bool)
    (h : runTrace ops prog = some (st, env)) (ρ : Ref) :
    gradOf (backward ops st root retain) ρ
      = gradOf (backward_dfs ops st root retain) ρ := by
  have hInv := runTrace_inv h
  rw [backward_eq_backward_dfs hInv.1 hInv.2.2.1 root retain]

/-- C1 witness: the two sweeps agree on the fan-out graph `z = x * x`. -/
theorem c1_strategy_equivalence_witness :
    gradOf (backward ratOps stateC2 (Ref.tape 1) true) (Ref.tape 0)
      = gradOf (backward_dfs ratOps stateC2 (Ref.tape 1) true) (Ref.tape 0) :=
  c1_strategy_equivalence ratOps progC2 stateC2 envC2 (Ref.tape 1) true
    (by decide) (Ref.tape 0)

/-- C2: every backward rule accumulates (`+=`) its chain-rule contribution
into each operand's gradient — firing a rule adds `contribTotal` to the old
gradient, never overwrites it — and consequently on `z = x * x` with
`x = 3` the backward pass assigns `x.grad = 6`, not `3`. -/
theorem c2_accumulate_fanout :
    (∀ (ops : ScalarOps) (st : State) (r ρ : Ref), validRef st ρ →
      (getNode st r).prev0 ≠ some r →
      gradOf (runRule ops st r) ρ = gradOf st ρ + contribTotal ops st r ρ) ∧
    (runTrace ratOps progC2).map
      (fun se => gradOf (backward ratOps se.1 (Ref.tape 1) true) (Ref.tape 0))
      = some 6 ∧
    (runTrace ratOps progC2).map
      (fun se => gradOf (backward ratOps se.1 (Ref.tape 1) true) (Ref.tape 0))
      ≠ some 3 := by
  refine ⟨fun ops st r ρ hv h => gradOf_runRule_total hv h, by decide, by decide⟩

/-- C2 witness: the accumulation equation evaluated on the `z = x * x`
graph at the multiplication node and the leaf. -/
theorem c2_accumulate_fanout_witness :
    gradOf (runRule ratOps stateC2 (Ref.tape 1)) (Ref.tape 0)
      = gradOf stateC2 (Ref.tape 0) + contribTotal ratOps stateC2 (Ref.tape 1) (Ref.tape 0) :=
  c2_accumulate_fanout.1 ratOps stateC2 (Ref.tape 1) (Ref.tape 0)
    (show 0 < stateC2.tape.length by decide) (by decide)

/-- C3: for `a = 3`, `b = 2`, `f = a^2 + 3b - 5` built exactly as
`demo_calculus` builds it (`v_pow`, `mul`, `add` over tape leaves), the
forward value is `f.data = 10` and the backward pass from `f` assigns
`a.grad = 6` and `b.grad = 3`. -/
theorem c3_worked_example :
    (runTrace ratOps progC3).map (fun se =>
      (dataOf se.1 (Ref.tape 8),
       gradOf (backward ratOps se.1 (Ref.tape 8) true) (Ref.tape 0),
       gradOf (backward ratOps se.1 (Ref.tape 8) true) (Ref.tape 1)))
      = some (10, 6, 3) := by
  decide

/-- C7: `update_params` only rewrites parameter `data` fields (each becomes
`data - lr * grad`, gradients untouched) and leaves the tape alone;
`zero_grad` only zeroes parameter gradients (data untouched) and leaves the
tape alone. -/
theorem c7_update_isolation (st : State) (lr : ℚ) (i : ℕ) :
    (update_params st lr).tape = st.tape ∧
    ((update_params st lr).params.getD i default).data
      = (st.params.getD i default).data - lr * (st.params.getD i default).grad ∧
    ((update_params st lr).params.getD i default).grad
      = (st.params.getD i default).grad ∧
    (zero_grad st).tape = st.tape ∧
    ((zero_grad st).params.getD i default).grad = 0 ∧
    ((zero_grad st).params.getD i default).data = (st.params.getD i default).data := by
  have hmap : ∀ (f : Node → Node), f default = default →
      ∀ (l : List Node) (k : ℕ), (l.map f).getD k default = f (l.getD k default) := by
    intro f hf l
    induction l with
    | nil => intro k; simp [List.getD, hf]
    | cons a t ih =>
      intro k
      cases k with
      | zero => simp [List.getD]
      | succ k2 => simpa [List.getD] using ih k2
  have h1 := hmap (fun nd => { nd with data := nd.data - lr * nd.grad })
    (by
      show ({ (default : Node) with
        data := (default : Node).data - lr * (default : Node).grad }) = default
      have h0 : (default : Node).grad = 0 := rfl
      rw [h0, mul_zero, sub_zero]) st.params i
  have h2 := hmap (fun nd => { nd with grad := 0 }) rfl st.params i
  refine ⟨rfl, ?_, ?_, rfl, ?_, ?_⟩
  · rw [show (update_params st lr).params
      = st.params.map (fun nd => { nd with data := nd.data - lr * nd.grad }) from rfl, h1]
  · rw [show (update_params st lr).params
      = st.params.map (fun nd => { nd with data := nd.data - lr * nd.grad }) from rfl, h1]
  · rw [show (zero_grad st).params
      = st.params.map (fun nd => { nd with grad := 0 }) from rfl, h2]
  · rw [show (zero_grad st).params
      = st.params.map (fun nd => { nd with grad := 0 }) from rfl, h2]

/-- C8: every state produced by a client program satisfies the tape
discipline `WF`: each operand of each tape node is either a registered
parameter or a tape node with a strictly smaller creation index, so the
graph is acyclic and creation order is a reverse topological order. -/
theorem c8_tape_discipline (ops : ScalarOps) (prog : List Instr)
    (st : State) (env : List Ref) (h : runTrace ops prog = some (st, env)) :
    WF st :=
  (runTrace_inv h).1

/-- C8 witness: the discipline evaluated on the worked-example graph. -/
theorem c8_tape_discipline_witness : WF stateC2 :=
  c8_tape_discipline ratOps progC2 stateC2 envC2 (by decide)

/-- C9: `backward` with `retain_graph = false` resets the arena after
propagating — the cursor returns to zero and the next allocation lands at
index 0 — while with `retain_graph = true` it performs no cleanup: the
state is exactly the propagation phase's state, the tape keeps its length
and every node gradient the pass computed. -/
theorem c9_retain_semantics (ops : ScalarOps) (st : State) (root : Ref)
    (retain : Bool) (d : ℚ) (p0 p1 : Option Ref) (i : ℕ) :
    (backward ops st root false).tape = [] ∧
    new_val (backward ops st root false) d p0 p1
      = some (pushNode (backward ops st root false) ⟨d, 0, Op.leaf, p0, p1⟩,
          Ref.tape 0) ∧
    backward ops st root true = backward_pass ops st root ∧
    (backward ops st root true).tape.length = st.tape.length ∧
    gradOf (backward ops st root true) (Ref.tape i)
      = gradOf (backward_pass ops st root) (Ref.tape i) := by
  constructor
  · rfl
  constructor
  · show new_val (free_vals (backward_pass ops st root)) d p0 p1
      = some (pushNode (backward ops st root false) ⟨d, 0, Op.leaf, p0, p1⟩, Ref.tape 0)
    unfold new_val free_vals pushNode
    simp [MAX_TAPE_SIZE]
    exact ⟨rfl, rfl⟩
  refine ⟨rfl, ?_, rfl⟩
  exact (structEq_backward_pass ops st root).1.symm

/-- C4 counterexample: with the tape already holding exactly
`MAX_TAPE_SIZE` nodes, the allocation does NOT fail: the guard is
`tape_head > MAX_TAPE_SIZE`, so the request succeeds and hands out index
`MAX_TAPE_SIZE` — in the C program a write one past the end of
`tape_memory`.  And when the guard does fire, the C code calls `exit(1)`
(modelled `none`), not a recoverable error return. -/
theorem c4_capacity_counterexample :
    fullState.tape.length = MAX_TAPE_SIZE ∧
    new_val fullState 1 none none = some (fullStatePlus, Ref.tape MAX_TAPE_SIZE) := by
  have hlen : fullState.tape.length = MAX_TAPE_SIZE := by simp [fullState]
  constructor
  · exact hlen
  · unfold new_val
    rw [if_neg (by rw [hlen]; exact lt_irrefl _), hlen]
    rfl

/-- C4: allocation behaviour at the capacity boundary.  `new_val` refuses
(and in C the process terminates via `exit(1)`, modelled as `none`) exactly
when the cursor already EXCEEDS `MAX_TAPE_SIZE`; at a cursor equal to
`MAX_TAPE_SIZE` the allocation still succeeds and returns index
`MAX_TAPE_SIZE`, one past the end of the C array. -/
theorem c4_capacity_guard (st : State) (d : ℚ) (p0 p1 : Option Ref) :
    (new_val st d p0 p1 = none ↔ st.tape.length > MAX_TAPE_SIZE) ∧
    (st.tape.length = MAX_TAPE_SIZE →
      new_val st d p0 p1
        = some (pushNode st ⟨d, 0, Op.leaf, p0, p1⟩, Ref.tape MAX_TAPE_SIZE)) := by
  constructor
  · unfold new_val
    by_cases h : st.tape.length > MAX_TAPE_SIZE
    · simp [h]
    · simp [h]
  · intro hlen
    unfold new_val
    rw [if_neg (by rw [hlen]; exact lt_irrefl _), hlen]
    rfl

/-- C4 witness: the guard theorem applied at a tape holding exactly
`MAX_TAPE_SIZE` nodes. -/
theorem c4_capacity_guard_witness :
    fullState.tape.length = MAX_TAPE_SIZE ∧
    new_val fullState 1 none none
      = some (pushNode fullState ⟨1, 0, Op.leaf, none, none⟩,
          Ref.tape MAX_TAPE_SIZE) :=
  ⟨by simp [fullState],
   (c4_capacity_guard fullState 1 none none).2 (by simp [fullState])⟩

/-- C5 counterexample: the handle `Ref.tape 0` (C: a `Value*` into
`tape_memory`) reads data `7` before the reset; after `free_vals` the very
next allocation reuses slot 0, and the same stale handle silently reads the
new node's data `42` — no `StaleHandle` error exists anywhere in the
code. -/
theorem c5_stale_counterexample :
    dataOf stC5a (Ref.tape 0) = 7 ∧
    new_val (free_vals stC5a) 42 none none = some (stC5b, Ref.tape 0) ∧
    dataOf stC5b (Ref.tape 0) = 42 :=
  ⟨rfl, rfl, rfl⟩

/-- C5: what actually happens to pre-reset handles.  After `free_vals` the
allocation cursor is zero, so the next `new_val` always succeeds and hands
out index 0 again; any handle to old index 0 now silently aliases the new
node and reads its data — there is no generation counter and no error. -/
theorem c5_reset_aliases (st : State) (d : ℚ) (p0 p1 : Option Ref) :
    new_val (free_vals st) d p0 p1
      = some (pushNode (free_vals st) ⟨d, 0, Op.leaf, p0, p1⟩, Ref.tape 0) ∧
    ∀ st2 r2, new_val (free_vals st) d p0 p1 = some (st2, r2) →
      r2 = Ref.tape 0 ∧ dataOf st2 (Ref.tape 0) = d := by
  have h2 : new_val (free_vals st) d p0 p1
      = some (pushNode (free_vals st) ⟨d, 0, Op.leaf, p0, p1⟩, Ref.tape 0) := rfl
  refine ⟨h2, fun st2 r2 h => ?_⟩
  rw [h2] at h
  injection h with h2'
  injection h2' with ha hb
  exact ⟨hb.symm, by rw [← ha]; rfl⟩

/-- C5 witness: the aliasing theorem applied to a tape holding one leaf of
data `7`, reset, and reallocated with data `42`. -/
theorem c5_reset_aliases_witness :
    Ref.tape 0 = Ref.tape 0 ∧ dataOf stC5b (Ref.tape 0) = 42 :=
  (c5_reset_aliases stC5a 42 none none).2 stC5b (Ref.tape 0) rfl

/-- C6 counterexample: the exponent of a pow node IS stored as a graph
operand, not as plain numeric data.  Building `x ^ 2` from `x = 3`
(`v_pow`) allocates the exponent `2` as tape node 1 and wires it in as
`prev[1]` of the pow node. -/
theorem c6_exponent_counterexample :
    runTrace ratOps progPow = some (statePow, envPow) ∧
    (getNode statePow (Ref.tape 2)).op = Op.pow ∧
    (getNode statePow (Ref.tape 2)).prev1 = some (Ref.tape 1) ∧
    dataOf statePow (Ref.tape 1) = 2 := by
  decide

/-- C6: although `v_pow` stores the exponent as an ordinary graph node
(`prev[1]` of the pow node), no backward pass ever adds a gradient
contribution to an exponent node: `pow_backward` reads `prev[1]->data` but
writes only `prev[0]->grad`, and an exponent node is never an operand of
any other rule, so after either `backward` or `backward_dfs` from any
client-held root its gradient is still exactly zero. -/
theorem c6_exponent_gradient (ops : ScalarOps) (prog : List Instr)
    (st : State) (env : List Ref) (root : Ref) (retain : Bool) (j : ℕ)
    (h : runTrace ops prog = some (st, env)) (hroot : root ∈ env)
    (hj : isExpAt st j) :
    gradOf (backward ops st root retain) (Ref.tape j) = 0 ∧
    gradOf (backward_dfs ops st root retain) (Ref.tape j) = 0 := by
  obtain ⟨hwf, henv, hgz, hgp, hexp⟩ := runTrace_inv h
  obtain ⟨hnotenv, hcond⟩ := hexp j hj
  have hrootne : root ≠ Ref.tape j := fun hc => hnotenv (hc ▸ hroot)
  have hK : ∀ k, (getNode st (Ref.tape k)).prev0 ≠ some (Ref.tape j) ∧
      (writesPrev1 (getNode st (Ref.tape k)).op →
        (getNode st (Ref.tape k)).prev1 ≠ some (Ref.tape j)) := by
    intro k
    refine ⟨(hcond k).1, fun hw hp1 => ?_⟩
    have hop := (hcond k).2 hp1
    rw [hop] at hw
    simp [writesPrev1] at hw
  have hpass : gradOf (backward_pass ops st root) (Ref.tape j) = 0 := by
    show gradOf (runList ops (mapRef st root (fun nd => { nd with grad := 1 }))
        ((List.range (rootBound root)).reverse)) (Ref.tape j) = 0
    rw [gradOf_runList_ne hK ((List.range (rootBound root)).reverse)
        (mapRef st root (fun nd => { nd with grad := 1 })) structEq_mapRef_grad,
      gradOf_mapRef_ne (fun hc => hrootne hc.symm)]
    exact hgz j
  have hone : ∀ b : Bool, gradOf (backward ops st root b) (Ref.tape j) = 0 := by
    intro b
    cases b
    · exact gradOf_free_vals
    · exact hpass
  refine ⟨hone retain, ?_⟩
  rw [← backward_eq_backward_dfs hwf hgz root retain]
  exact hone retain

/-- C6 witness: the exponent-gradient theorem applied to the concrete
`x ^ 2` graph, whose exponent occupies tape slot 1 under the pow node at
slot 2. -/
theorem c6_exponent_gradient_witness :
    gradOf (backward ratOps statePow (Ref.tape 2) true) (Ref.tape 1) = 0 ∧
    gradOf (backward_dfs ratOps statePow (Ref.tape 2) true) (Ref.tape 1) = 0 :=
  c6_exponent_gradient ratOps progPow statePow envPow (Ref.tape 2) true 1
    (by decide) (by decide) ⟨2, by decide, by decide, by decide⟩

theorem ratPow_neg_one {y : ℚ} : ratPow y (-1) = 1 / y := by
  unfold ratPow
  rw [if_pos (show ((-1 : ℚ)).den = 1 by decide),
    show ((-1 : ℚ)).num = -1 by decide, zpow_neg_one, one_div]

theorem ratPow_neg_two {y : ℚ} : ratPow y (-1 - 1) = (y * y)⁻¹ := by
  unfold ratPow
  rw [if_pos (show ((-1 - 1 : ℚ)).den = 1 by decide),
    show ((-1 - 1 : ℚ)).num = -2 by decide,
    show ((-2 : ℤ)) = -(2 : ℤ) from rfl, zpow_neg]
  congr 1
  rw [show ((2 : ℤ)) = ((2 : ℕ) : ℤ) from rfl, zpow_natCast, pow_two]

set_option maxHeartbeats 1600000 in
/-- C10: for every pair of leaf operands `x` and `y` with `y ≠ 0`, the
composed division `v_div` (`mul(a, v_pow(b, -1))`) and the direct
`true_div` produce the same forward value `x / y`, and a backward pass from
either division node assigns the same gradients `1/y` to `x` and
`-x / (y*y)` to `y` — exactly, in the rational model. -/
theorem c10_div_refinement (x y : ℚ) (hy : y ≠ 0) :
    divObserve (progDivV x y) (Ref.tape 4) = some (x / y, 1 / y, -x / (y * y)) ∧
    divObserve (progDivT x y) (Ref.tape 2) = some (x / y, 1 / y, -x / (y * y)) := by
  have hTV : runTrace ratOps (progDivV x y)
      = some (stDivV x y, [Ref.tape 0, Ref.tape 1, Ref.tape 4]) := rfl
  have hTT : runTrace ratOps (progDivT x y)
      = some (stDivT x y, [Ref.tape 0, Ref.tape 1, Ref.tape 2]) := rfl
  have hdV : dataOf (stDivV x y) (Ref.tape 4) = x * ratPow y (-1) := rfl
  have hg0V : gradOf (backward ratOps (stDivV x y) (Ref.tape 4) true) (Ref.tape 0)
      = 0 + ratPow y (-1) * 1 := rfl
  have hg1V : gradOf (backward ratOps (stDivV x y) (Ref.tape 4) true) (Ref.tape 1)
      = 0 + -1 * ratPow y (-1 - 1) * (0 + x * 1) := rfl
  have hdT : dataOf (stDivT x y) (Ref.tape 2) = x / y := rfl
  have hg0T : gradOf (backward ratOps (stDivT x y) (Ref.tape 2) true) (Ref.tape 0)
      = 0 + 1 / y * 1 := rfl
  have hg1T : gradOf (backward ratOps (stDivT x y) (Ref.tape 2) true) (Ref.tape 1)
      = 0 + -x / (y * y) * 1 := rfl
  constructor
  · unfold divObserve
    rw [hTV]
    show some (dataOf (stDivV x y) (Ref.tape 4),
        gradOf (backward ratOps (stDivV x y) (Ref.tape 4) true) (Ref.tape 0),
        gradOf (backward ratOps (stDivV x y) (Ref.tape 4) true) (Ref.tape 1))
      = some (x / y, 1 / y, -x / (y * y))
    rw [hdV, hg0V, hg1V, ratPow_neg_one, ratPow_neg_two]
    simp only [Option.some.injEq, Prod.mk.injEq]
    refine ⟨by rw [mul_one_div], by ring, by ring⟩
  · unfold divObserve
    rw [hTT]
    show some (dataOf (stDivT x y) (Ref.tape 2),
        gradOf (backward ratOps (stDivT x y) (Ref.tape 2) true) (Ref.tape 0),
        gradOf (backward ratOps (stDivT x y) (Ref.tape 2) true) (Ref.tape 1))
      = some (x / y, 1 / y, -x / (y * y))
    rw [hdT, hg0T, hg1T]
    simp only [Option.some.injEq, Prod.mk.injEq]
    refine ⟨trivial, by ring, by ring⟩

/-- C10 witness: the refinement evaluated at `x = 1`, `y = 2`. -/
theorem c10_div_refinement_witness :
    divObserve (progDivV 1 2) (Ref.tape 4)
      = some (1 / 2, 1 / 2, -1 / (2 * 2)) ∧
    divObserve (progDivT 1 2) (Ref.tape 2)
      = some (1 / 2, 1 / 2, -1 / (2 * 2)) :=
  c10_div_refinement 1 2 (by norm_num)

end Micrograd

